import Mathlib

/-!
Verification development for the artemis GraphQL engine (Go).

The definitions below are shallow embeddings of the Go sources:
  * the error model and `NewError`          (graphql package, error file)
  * input value coercion (`coerceValueImpl`, graphql/internal/value/value_coercion.go)
  * field collection (`collectFields`, `buildChildExecutionNodesForSelectionSet`,
    `shouldIncludeNode`, graphql/executor/execute.go)
  * value completion (`completeValue`, `completeWrappingValue`,
    `completeNonWrappingValue`, `completeLeafValue`, `completeObjectValue`,
    `completeAbstractValue`, `handleNodeError`, graphql/executor/execute.go)

Go interface values, maps keyed by schema objects, and pointer-linked result
trees are rendered as inductive values, association lists, and an
address-indexed heap (`Array ResultNode`) respectively.  Functions of the
repository that are referenced by the embedded code but whose bodies are not
part of the source slice (the executor's `AppendError`, `ResultNode` methods,
`values.DirectiveValues`, `values.ArgumentValues`, `util.SuggestionList`, the
schema object model) are modelled from the specification; each such definition
carries a doc comment starting with `Modelled from the spec:`.
-/

namespace Artemis

/-! ## Error model (graphql package) -/

/-- Kind of error, mirroring the Go `ErrKind` enumeration (`ErrKindOther`,
`ErrKindCoercion`, `ErrKindSyntax`, `ErrKindValidation`, `ErrKindExecution`,
`ErrKindInternal`). -/
inductive ErrKind : Type where
  | Other
  | Coercion
  | Syn
  | Validation
  | Execution
  | Internal
deriving DecidableEq, Repr

/-- Mirrors Go `ErrorLocation`: a 1-indexed line/column pair. -/
structure ErrorLocation : Type where
  Line : Nat
  Column : Nat
deriving DecidableEq, Repr

/-- One key of a response path: a field name or a list index (Go stores these
as `interface{}` values that are either `string` or `int`). -/
inductive PathKey : Type where
  | fieldName (name : String)
  | index (i : Nat)
deriving DecidableEq, Repr

/-- Mirrors Go `ResponsePath`: an ordered sequence of keys. -/
structure ResponsePath : Type where
  keys : List PathKey
deriving DecidableEq, Repr

/-- Mirrors Go `ErrorExtensions` (`map[string]interface{}`); values are kept
abstract as strings. -/
def ErrorExtensions : Type := List (String × String)

instance : DecidableEq ErrorExtensions := by
  unfold ErrorExtensions
  infer_instance

/-- A Go `error` value as seen by this package: either a `*graphql.Error`
(constructor `core`, carrying the fields of the Go `Error` struct in
declaration order: Message, Locations, Path, Extensions, Err, Op, Kind) or a
plain error produced by `fmt.Errorf` (constructor `plain`, carrying its
message).  Foreign error types implementing `ErrorWithLocations`/
`ErrorWithPath`/`ErrorWithExtensions` are not modelled; they do not occur in
the embedded code paths. -/
inductive GoError : Type where
  | core (message : String) (locations : List ErrorLocation)
      (path : Option ResponsePath) (extensions : Option ErrorExtensions)
      (cause : Option GoError) (op : String) (kind : ErrKind)
  | plain (message : String)

/-- Message of a Go error value (`Error()` for `plain`; the `Message` field
for `core`). -/
def GoError.message : GoError → String
  | .core m _ _ _ _ _ _ => m
  | .plain m => m

/-- Whether the error is a `*graphql.Error`. -/
def GoError.isCore : GoError → Bool
  | .core _ _ _ _ _ _ _ => true
  | .plain _ => false

/-- The `Kind` field of a `*graphql.Error`; `Other` for plain errors (which
carry no kind). -/
def GoError.errKind : GoError → ErrKind
  | .core _ _ _ _ _ _ k => k
  | .plain _ => .Other

/-- The `Locations` field of a `*graphql.Error`; empty for plain errors. -/
def GoError.errLocations : GoError → List ErrorLocation
  | .core _ ls _ _ _ _ _ => ls
  | .plain _ => []

/-- The `Path` field of a `*graphql.Error`; `none` for plain errors. -/
def GoError.errPath : GoError → Option ResponsePath
  | .core _ _ p _ _ _ _ => p
  | .plain _ => none

/-! ## NewError (graphql package) -/

/-- One variadic argument to `NewError`.  The Go function switches on the
dynamic type of each `interface{}` argument; `unknownArg` stands for a value
of any type outside the recognized set, carrying the strings that
`fmt.Errorf("unknown type %T, value %v in error call", arg, arg)` would print
for it. -/
inductive ErrArg : Type where
  | location (l : ErrorLocation)
  | locationList (ls : List ErrorLocation)
  | path (p : ResponsePath)
  | extensions (x : ErrorExtensions)
  | err (e : GoError)
  | op (o : String)
  | kind (k : ErrKind)
  | unknownArg (typeName : String) (valueStr : String)

/-- Whether an argument falls into `NewError`'s `default` switch case. -/
def ErrArg.isUnknown : ErrArg → Bool
  | .unknownArg _ _ => true
  | _ => false

/-- The fields of the Go `Error` struct while `NewError` is filling them in.
Zero values follow Go: nil slice, nil pointers, empty string, `ErrKindOther`. -/
structure ErrorFields : Type where
  Message : String
  Locations : List ErrorLocation := []
  Path : Option ResponsePath := none
  Extensions : Option ErrorExtensions := none
  Err : Option GoError := none
  Op : String := ""
  Kind : ErrKind := .Other

/-- The argument loop of `NewError`: each recognized argument overwrites the
corresponding field; an unrecognized argument aborts with the formatted
message that the Go code returns via `fmt.Errorf`. -/
def applyErrArgs (e : ErrorFields) : List ErrArg → Except String ErrorFields
  | [] => .ok e
  | a :: rest =>
    match a with
    | .location l => applyErrArgs { e with Locations := [l] } rest
    | .locationList ls => applyErrArgs { e with Locations := ls } rest
    | .path p => applyErrArgs { e with Path := some p } rest
    | .extensions x => applyErrArgs { e with Extensions := some x } rest
    | .err er => applyErrArgs { e with Err := some er } rest
    | .op o => applyErrArgs { e with Op := o } rest
    | .kind k => applyErrArgs { e with Kind := k } rest
    | .unknownArg t v =>
      .error ("unknown type " ++ t ++ ", value " ++ v ++ " in error call")

/-- Inheritance of `Locations` from the underlying error in `NewError` (the
`case *Error` branch; the `ErrorWithLocations` interface case has no
inhabitants in this model). -/
def inheritLocations (prev : GoError) (e : ErrorFields) : ErrorFields :=
  if e.Locations = [] then
    match prev with
    | .core _ locs _ _ _ _ _ => if locs ≠ [] then { e with Locations := locs } else e
    | .plain _ => e
  else e

/-- Inheritance of `Path` from the underlying error in `NewError` (a clone in
Go; values are immutable here). -/
def inheritPath (prev : GoError) (e : ErrorFields) : ErrorFields :=
  if e.Path = none then
    match prev with
    | .core _ _ (some p) _ _ _ _ => { e with Path := some p }
    | _ => e
  else e

/-- Inheritance of `Extensions` from the underlying error in `NewError`. -/
def inheritExtensions (prev : GoError) (e : ErrorFields) : ErrorFields :=
  if e.Extensions = none then
    match prev with
    | .core _ _ _ x _ _ _ => { e with Extensions := x }
    | .plain _ => e
  else e

/-- Inheritance of `Kind` from the underlying error in `NewError`: only when
the kind so far is `Other` and the cause is a core `Error`. -/
def inheritKind (prev : GoError) (e : ErrorFields) : ErrorFields :=
  if e.Kind = .Other then
    match prev with
    | .core _ _ _ _ _ _ k => { e with Kind := k }
    | .plain _ => e
  else e

/-- The propagation block of `NewError`: when an underlying error is present,
locations, path, extensions and (for kind `Other`) the kind are inherited from
it when they were not provided in the arguments. -/
def propagateFromCause (e : ErrorFields) : ErrorFields :=
  match e.Err with
  | none => e
  | some prev => inheritKind prev (inheritExtensions prev (inheritPath prev (inheritLocations prev e)))

/-- Embedding of Go `NewError(message, args...)`.  Returns the built
`*graphql.Error` (constructor `core`) or, when some argument has an
unrecognized type, the plain error from `fmt.Errorf`. -/
def NewError (message : String) (args : List ErrArg) : GoError :=
  match applyErrArgs { Message := message } args with
  | .error msg => .plain msg
  | .ok e =>
    let e := propagateFromCause e
    .core e.Message e.Locations e.Path e.Extensions e.Err e.Op e.Kind

/-- The kind that the argument list explicitly assigns (last `ErrKind`
argument wins, `Other` when none is given), mirroring the overwrite behaviour
of the argument loop. -/
def explicitKind (args : List ErrArg) : ErrKind :=
  args.foldl (fun k a => match a with | .kind k2 => k2 | _ => k) .Other

/-- The cause that the argument list assigns (last `error` argument wins). -/
def explicitCause (args : List ErrArg) : Option GoError :=
  args.foldl (fun c a => match a with | .err e => some e | _ => c) none

/-! ## Input values and input types (graphql/internal/value/value_coercion.go) -/

/-- A dynamically typed Go input value (`interface{}`): nil, numbers, strings,
booleans, slices, and `map[string]interface{}` objects. -/
inductive IValue : Type where
  | null
  | int (n : Int)
  | str (s : String)
  | bool (b : Bool)
  | list (elems : List IValue)
  | obj (fields : List (String × IValue))

/-- A GraphQL input-position type as dispatched on by `coerceValueImpl`'s type
switch: Scalar, Enum, List, InputObject, NonNull, and any non-input type
(hitting the default branch).  Scalars and enums carry their
`CoerceVariableValue` behaviour as a function, since the schema object model
is an external collaborator.  Input object fields are `(name, type, default)`
triples in declaration order (Go iterates a map; a fixed order is used
here). -/
inductive InType : Type where
  | scalar (name : String) (coerce : IValue → Except GoError IValue)
  | enum (name : String) (valueNames : List String) (coerce : IValue → Except GoError IValue)
  | list (elem : InType)
  | inputObject (name : String) (fields : List (String × InType × Option IValue))
  | nonNull (inner : InType)
  | nonInput (name : String)

/-- Mirrors Go `graphql.IsNonNullType`. -/
def isNonNullInType : InType → Bool
  | .nonNull _ => true
  | _ => false

/-- Modelled from the spec: the schema object model's `String()` rendering of
a type (the schema code is outside the source slice); standard GraphQL
notation: `T!` for non-null, `[T]` for list, the name otherwise. -/
def typeString : InType → String
  | .scalar n _ => n
  | .enum n _ _ => n
  | .list t => "[" ++ typeString t ++ "]"
  | .inputObject n _ => n
  | .nonNull t => typeString t ++ "!"
  | .nonInput n => n

/-- Mirrors the `valuePath` linked list of value_coercion.go, in root-to-leaf
order (the Go code threads a `prev`-linked list and renders it leaf-to-root by
prepending). -/
abbrev ValuePath : Type := List PathKey

/-- Rendering of one `valuePath` key (`.name` for field names, `[i]` for list
indexes), as in `valuePath.String()`. -/
def valuePathKeyString : PathKey → String
  | .fieldName s => "." ++ s
  | .index i => "[" ++ toString i ++ "]"

/-- Mirrors `valuePath.String()`: concatenates the rendered keys from root to
leaf and prefixes `value` when non-empty. -/
def valuePathString (path : ValuePath) : String :=
  let s := path.foldl (fun acc k => acc ++ valuePathKeyString k) ""
  if s.length > 0 then "value" ++ s else s

/-- Levenshtein edit distance between two character lists, used by the
suggestion list. -/
def levenshtein : List Char → List Char → Nat
  | [], b => b.length
  | a, [] => a.length
  | x :: xs, y :: ys =>
    if x = y then levenshtein xs ys
    else 1 + min (min (levenshtein xs (y :: ys)) (levenshtein (x :: xs) ys)) (levenshtein xs ys)
termination_by a b => a.length + b.length
decreasing_by all_goals simp_arith [List.length]

/-- Comparator for suggestions: ascending edit distance to the input, ties
broken lexicographically. -/
def suggLE (input a b : String) : Bool :=
  let da := levenshtein input.data a.data
  let db := levenshtein input.data b.data
  decide (da < db) || (decide (da = db) && decide (a ≤ b))

/-- Insertion into a list sorted by `le`. -/
def insertSorted (le : String → String → Bool) (x : String) : List String → List String
  | [] => [x]
  | y :: ys => if le x y then x :: y :: ys else y :: insertSorted le x ys

/-- Modelled from the spec: `util.SuggestionList` (not in the source slice)
returns the candidates ordered first by ascending edit distance to the input,
then lexicographically. -/
def SuggestionList (input : String) (options : List String) : List String :=
  options.foldr (insertSorted (suggLE input)) []

/-- Quotes an item when requested, as in `util.OrList`. -/
def orListItem (quoted : Bool) (s : String) : String :=
  if quoted then "\"" ++ s ++ "\"" else s

/-- Embedding of `util.OrList` (unnamed/part_000): renders `[A]` as `A`,
`[A,B]` as `A or B`, `[A,B,C]` as `A, B, or C`, truncated to `maxLength`
items, optionally double-quoting each item. -/
def OrList (items : List String) (maxLength : Nat) (quoted : Bool) : String :=
  if items.length = 0 then ""
  else
    let items := if items.length > maxLength then items.take maxLength else items
    let numItems := items.length
    (List.range' 1 (numItems - 1)).foldl
      (fun s i =>
        s ++ (if numItems > 2 then ", " else " ")
          ++ (if i = numItems - 1 then "or " else "")
          ++ orListItem quoted (items.getD i ""))
      (orListItem quoted (items.getD 0 ""))

/-- Modelled from the spec: Go `fmt` rendering (`%v`) of an input value, used
only to feed the suggestion machinery; its exact shape is immaterial to the
claims. -/
def formatIValue : IValue → String
  | .null => "<nil>"
  | .int n => toString n
  | .str s => s
  | .bool b => if b then "true" else "false"
  | .list xs => "[" ++ String.intercalate " " (xs.attach.map (fun ⟨x, _⟩ => formatIValue x)) ++ "]"
  | .obj fs =>
    "map[" ++ String.intercalate " "
      (fs.attach.map (fun ⟨p, _⟩ => p.1 ++ ":" ++ formatIValue p.2)) ++ "]"
termination_by v => sizeOf v
decreasing_by
  · have h1 := List.sizeOf_lt_of_mem ‹x ∈ xs›
    simp_arith
    omega
  · have h1 := List.sizeOf_lt_of_mem ‹p ∈ fs›
    obtain ⟨pa, pb⟩ := p
    simp_arith at h1 ⊢
    omega

/-- Modelled from the spec: Go `fmt` rendering (`%T`) of an input value's
dynamic type, used in the InputObject non-map error message. -/
def goTypeName : IValue → String
  | .null => "<nil>"
  | .int _ => "int"
  | .str _ => "string"
  | .bool _ => "bool"
  | .list _ => "[]interface {}"
  | .obj _ => "map[string]interface {}"

/-- Embedding of `newCoercionError` from value_coercion.go.  The blame node is
represented by its source location (`ErrorLocationOfASTNode`); `none` stands
for a nil `ast.Node`.  The result is always a core error (`NewError` with
recognized arguments). -/
def newCoercionError (message : String) (blameNode : Option ErrorLocation) (path : ValuePath)
    (subMessage : String) (originalError : Option GoError) : GoError :=
  let b := message ++ (if path ≠ [] then " at " ++ valuePathString path else "")
  let b := if subMessage.length > 0 then b ++ "; " ++ subMessage else b ++ "."
  let locations : List ErrorLocation := match blameNode with
    | some l => [l]
    | none => []
  match originalError with
  | none => NewError b [.locationList locations]
  | some orig => NewError b [.locationList locations, .err orig]

/-- Assoc-list lookup standing for a Go map index `objectValue[name]`. -/
def lookupField (objectValue : List (String × IValue)) (name : String) : Option IValue :=
  match objectValue with
  | [] => none
  | (k, v) :: rest => if k = name then some v else lookupField rest name

/-- Assoc-list lookup standing for the Go map index `fields[name]` on an
input object's declared fields. -/
def lookupFieldSpec (fields : List (String × InType × Option IValue)) (name : String) :
    Option (InType × Option IValue) :=
  match fields with
  | [] => none
  | (k, v) :: rest => if k = name then some v else lookupFieldSpec rest name

/-- The body of the unknown-provided-key pass of `coerceValueImpl`'s
InputObject case, for one provided key (`kv`): an error is appended when the
key is not among the declared fields. -/
def unknownFieldStep (blameNode : Option ErrorLocation) (path : ValuePath) (tname : String)
    (fields : List (String × InType × Option IValue)) (acc : List GoError)
    (kv : String × IValue) : List GoError :=
  if (lookupFieldSpec fields kv.1).isSome then acc
  else
    let fieldNames := fields.map (·.1)
    let suggestions := SuggestionList kv.1 fieldNames
    let didYouMean :=
      if suggestions.length > 0 then
        "did you mean " ++ OrList suggestions 5 false ++ "?"
      else ""
    acc ++ [newCoercionError
      ("Field \"" ++ kv.1 ++ "\" is not defined by type " ++ tname)
      blameNode path didYouMean none]

mutual

/-- Embedding of `coerceValueImpl` from value_coercion.go.  Returns the
coerced value together with the list of coercion errors; error returns carry
`.null` as the (undefined) value, matching the Go `nil`.  The element and
field loops are rendered as maps whose per-element results are aggregated
afterwards; the Go code stops collecting coerced values after the first error
but only ever uses them when no error occurred, so the aggregate is the
same.  The InputObject case is split into the mutually recursive
`coerceInputObject` below. -/
def coerceValueImpl (value : IValue) (t : InType) (blameNode : Option ErrorLocation)
    (path : ValuePath) : IValue × List GoError :=
  match t, value with
  | .nonNull inner, .null =>
    (.null, [newCoercionError
      ("Expected non-nullable type " ++ typeString (.nonNull inner) ++ " not to be null")
      blameNode path "" none])
  | .nonNull inner, v => coerceValueImpl v inner blameNode path
  | _, .null => (.null, [])
  | .scalar name co, v =>
    match co v with
    | .ok coerced => (coerced, [])
    | .error err =>
      let subMessage := match err with
        | .core m _ _ _ _ _ k => if k = .Coercion then m else ""
        | .plain _ => ""
      (.null, [newCoercionError ("Expected type " ++ typeString (.scalar name co))
        blameNode path subMessage (some err)])
  | .enum name valueNames co, v =>
    match co v with
    | .ok coerced => (coerced, [])
    | .error err =>
      let suggestions := SuggestionList (formatIValue v) valueNames
      let didYouMean :=
        if suggestions.length > 0 then
          "did you mean " ++ OrList suggestions 5 false ++ "?"
        else ""
      (.null, [newCoercionError ("Expected type " ++ typeString (.enum name valueNames co))
        blameNode path didYouMean (some err)])
  | .list elemType, .list elems =>
    if elems.length = 0 then (.list [], [])
    else
      let results := elems.enum.map
        (fun p => coerceValueImpl p.2 elemType blameNode (path ++ [PathKey.index p.1]))
      let errs := results.foldl (fun acc r => acc ++ r.2) ([] : List GoError)
      if errs.length > 0 then (.null, errs)
      else (.list (results.map (·.1)), [])
  | .list elemType, v =>
    -- Lists accept a non-list value as a list of one.
    let (coercedValue, errs) := coerceValueImpl v elemType blameNode path
    if errs.length > 0 then (.null, errs)
    else (.list [coercedValue], [])
  | .inputObject tname fields, .obj objectValue =>
    coerceInputObject tname fields objectValue blameNode path
  | .inputObject tname fields, v =>
    (.null, [newCoercionError ("Expected type " ++ typeString (.inputObject tname fields) ++ " to be an object")
      blameNode path ""
      (some (NewError
        ("value for InputObject should be given in a map[string]interface\x7b\x7d, but got: " ++ goTypeName v)
        []))])
  | .nonInput name, _ =>
    (.null, [newCoercionError (typeString (.nonInput name) ++ " is not a valid input type")
      blameNode path "" none])
termination_by 3 * sizeOf t + 2
decreasing_by
  all_goals simp_wf
  all_goals simp_arith

/-- One iteration of the declared-fields loop of the InputObject case of
`coerceValueImpl`: the provided value for the field is coerced with the path
extended by the field name; an absent field takes its default when present,
errors when its type is non-null, and is skipped otherwise.  Returns the
coerced map entry (when any) and the errors of this field. -/
def coerceObjectField (blameNode : Option ErrorLocation) (path : ValuePath)
    (objectValue : List (String × IValue)) (f : String × InType × Option IValue) :
    Option (String × IValue) × List GoError :=
  let path' := path ++ [PathKey.fieldName f.1]
  match lookupField objectValue f.1 with
  | none =>
    match f.2.2 with
    | some d => (some (f.1, d), ([] : List GoError))
    | none =>
      if isNonNullInType f.2.1 then
        (none, [newCoercionError
          ("Field " ++ valuePathString path' ++ " of required type "
            ++ typeString f.2.1 ++ " was not provided")
          blameNode ([] : List PathKey) "" none])
      else (none, [])
  | some fieldValue =>
    let r := coerceValueImpl fieldValue f.2.1 blameNode path'
    if r.2.length > 0 then (none, r.2)
    else (some (f.1, r.1), [])
termination_by 3 * sizeOf f
decreasing_by
  all_goals simp_wf
  obtain ⟨fn, ft, fd⟩ := f
  simp_arith at *

/-- The InputObject case of `coerceValueImpl`: every declared field is
processed with `coerceObjectField`, then every provided key is checked to be
declared (`unknownFieldStep`). -/
def coerceInputObject (tname : String) (fields : List (String × InType × Option IValue))
    (objectValue : List (String × IValue)) (blameNode : Option ErrorLocation)
    (path : ValuePath) : IValue × List GoError :=
  let fieldResults := fields.attach.map
    (fun f => coerceObjectField blameNode path objectValue f.1)
  let errs := fieldResults.foldl (fun acc r => acc ++ r.2) ([] : List GoError)
  let coercedValue := fieldResults.filterMap (·.1)
  let unknownErrs := objectValue.foldl (unknownFieldStep blameNode path tname fields)
    ([] : List GoError)
  let errs := errs ++ unknownErrs
  if errs.length > 0 then (.null, errs)
  else (.obj coercedValue, [])
termination_by 3 * sizeOf fields + 1
decreasing_by
  all_goals simp_wf
  have h1 := List.sizeOf_lt_of_mem f.2
  omega

end

/-- Embedding of `CoerceValue`: the public entry point calls `coerceValueImpl`
with a nil path. -/
def CoerceValue (value : IValue) (t : InType) (blameNode : Option ErrorLocation) :
    IValue × List GoError :=
  coerceValueImpl value t blameNode ([] : List PathKey)

/-- A concrete scalar (identity variable coercion) used in example
instantiations. -/
def demoIntScalar : InType := .scalar "Int" (fun v => .ok v)

/-- A concrete scalar whose variable coercion maps every value to `42`.  Such
a normalizing coercion is legal for a user-supplied scalar; it witnesses that
a provided field value is re-coerced while a declared default is taken
verbatim. -/
def normalizingScalar : InType := .scalar "Weird" (fun _ => .ok (.int 42))

/-- An input object type with one field `f` of the normalizing scalar type
whose declared default value is `7`. -/
def normalizingObject : InType := .inputObject "O" [("f", normalizingScalar, some (.int 7))]

/-- Declared fields of a demo input object: one field `f` of the identity
scalar with default `7`. -/
def demoFields : List (String × InType × Option IValue) := [("f", demoIntScalar, some (.int 7))]

/-! ## AST model and field collection (graphql/executor/execute.go) -/

/-- A directive argument value for the `if` argument of `@skip`/`@include`:
a boolean literal or a variable reference. -/
inductive DirArgValue : Type where
  | lit (b : Bool)
  | varRef (name : String)
deriving DecidableEq, Repr

/-- An AST directive as consumed by `shouldIncludeNode`: its name and its
optional `if` argument. -/
structure ASTDirective : Type where
  name : String
  ifArg : Option DirArgValue
deriving DecidableEq, Repr

/-- An AST selection (`ast.Selection`): a field (alias, name, directives,
sub-selection set), an inline fragment, or a named fragment spread.  Field
arguments are not materialized; argument coercion is an environment
function. -/
inductive Selection : Type where
  | field (fieldAlias : Option String) (name : String) (directives : List ASTDirective)
      (selectionSet : List Selection)
  | inlineFragment (typeCondition : Option String) (directives : List ASTDirective)
      (selectionSet : List Selection)
  | fragmentSpread (name : String) (directives : List ASTDirective)

/-- Mirrors `ast.Selection.GetDirectives()`. -/
def Selection.getDirectives : Selection → List ASTDirective
  | .field _ _ ds _ => ds
  | .inlineFragment _ ds _ => ds
  | .fragmentSpread _ ds => ds

/-- Mirrors `ast.Field.SelectionSet` (empty for spreads, which carry none). -/
def Selection.selectionSetOf : Selection → List Selection
  | .field _ _ _ ss => ss
  | .inlineFragment _ _ ss => ss
  | .fragmentSpread _ _ => []

/-- Mirrors `ast.Field.ResponseKey()`: the alias when present, else the
name. -/
def fieldResponseKey (fieldAlias : Option String) (name : String) : String :=
  match fieldAlias with
  | some a => a
  | none => name

/-- Response key of a selection; meaningful for field selections. -/
def selectionResponseKey : Selection → String
  | .field fieldAlias name _ _ => fieldResponseKey fieldAlias name
  | .inlineFragment _ _ _ => ""
  | .fragmentSpread _ _ => ""

/-- Field name of a selection; meaningful for field selections. -/
def selectionFieldName : Selection → String
  | .field _ name _ _ => name
  | .inlineFragment _ _ _ => ""
  | .fragmentSpread _ _ => ""

/-- Assoc lookup standing for the Go map index into the variable values. -/
def lookupVar (vars : List (String × Bool)) (name : String) : Option Bool :=
  match vars with
  | [] => none
  | (k, v) :: rest => if k = name then some v else lookupVar rest name

/-- Modelled from the spec: `values.DirectiveValues` (not in the source
slice) finds the named directive on the node and coerces its `if` argument
from the literal or the operation's variable values; an absent directive or
argument yields no value; a missing variable is a coercion failure. -/
def directiveValues (dirName : String) (dirs : List ASTDirective)
    (vars : List (String × Bool)) : Except GoError (Option Bool) :=
  match dirs.find? (fun d => d.name == dirName) with
  | none => .ok none
  | some d =>
    match d.ifArg with
    | none => .ok none
    | some (.lit b) => .ok (some b)
    | some (.varRef v) =>
      match lookupVar vars v with
      | some b => .ok (some b)
      | none => .error (NewError ("Variable \"$" ++ v ++ "\" is not defined.") [])

/-- Embedding of `shouldIncludeNode` from execute.go: `@skip` is evaluated
first; if its `if` value is true the node is excluded; otherwise `@include`
is evaluated and the node is excluded when its `if` value is false. -/
def shouldIncludeNode (vars : List (String × Bool)) (node : Selection) :
    Except GoError Bool := do
  let shouldSkip ← directiveValues "skip" node.getDirectives vars
  if shouldSkip = some true then
    return false
  let shouldInclude ← directiveValues "include" node.getDirectives vars
  if shouldInclude = some false then
    return false
  return true

/-- Modelled from the spec: schema type references, compared by identity in
`doesTypeConditionSatisfy`; objects are concrete, interfaces and unions are
abstract. -/
inductive SchemaType : Type where
  | object (name : String)
  | interfaceType (name : String)
  | union (name : String)
deriving DecidableEq, Repr

/-- Mirrors the Go type assertion `t.(graphql.AbstractType)`. -/
def isAbstractType : SchemaType → Bool
  | .object _ => false
  | .interfaceType _ => true
  | .union _ => true

/-- Modelled from the spec: a schema field definition (the schema object
model is an external collaborator); only the name is material to
collection. -/
structure FieldDef : Type where
  name : String
deriving DecidableEq, Repr

/-- Modelled from the spec: a fragment definition: type condition and
selection set. -/
structure FragmentDef : Type where
  typeCondition : String
  selectionSet : List Selection

/-- Modelled from the spec: the `ExecutionNode` struct (defined in an
executor-package file outside the source slice): the coalesced AST field
selections, the chosen schema field definition, the coerced argument values,
and the lazily built children map keyed per runtime object type.  The parent
back-reference of the Go struct is dropped in this functional model;
`isRoot` stands for `Parent == nil && Definitions == nil`. -/
inductive ExecutionNode : Type where
  | mk (isRoot : Bool) (definitions : List Selection) (fieldDef : Option FieldDef)
      (argumentValues : List (String × IValue))
      (children : List (SchemaType × List ExecutionNode))

/-- The `IsRoot()` predicate of `ExecutionNode`. -/
def ExecutionNode.isRoot : ExecutionNode → Bool
  | .mk r _ _ _ _ => r

/-- The `Definitions` field of `ExecutionNode`. -/
def ExecutionNode.definitions : ExecutionNode → List Selection
  | .mk _ ds _ _ _ => ds

/-- The `Field` field of `ExecutionNode`. -/
def ExecutionNode.fieldDef : ExecutionNode → Option FieldDef
  | .mk _ _ fd _ _ => fd

/-- The `ArgumentValues` field of `ExecutionNode`. -/
def ExecutionNode.argumentValues : ExecutionNode → List (String × IValue)
  | .mk _ _ _ av _ => av

/-- The `Children` field of `ExecutionNode`. -/
def ExecutionNode.children : ExecutionNode → List (SchemaType × List ExecutionNode)
  | .mk _ _ _ _ ch => ch

/-- Appends one more coalesced definition to a node
(`field.Definitions = append(field.Definitions, selection)`). -/
def appendDefinition : ExecutionNode → Selection → ExecutionNode
  | .mk r defs fd av ch, sel => .mk r (defs ++ [sel]) fd av ch

/-- Replaces the definitions of a node (used only in statements). -/
def ExecutionNode.withDefinitions : ExecutionNode → List Selection → ExecutionNode
  | .mk r _ fd av ch, ds => .mk r ds fd av ch

/-- Response key of an ExecutionNode: the key of its first coalesced
definition. -/
def nodeResponseKey (n : ExecutionNode) : String :=
  match n.definitions with
  | [] => ""
  | d :: _ => selectionResponseKey d

/-- Modelled from the spec: the pieces of the execution context and schema
consulted by field collection: the operation's top-level selection set,
fragment definitions keyed by name, the variable values (booleans suffice
for directive arguments), the schema's field lookup (`Object.Fields()`),
`TypeFromAST`, `PossibleTypes`, and argument coercion
(`values.ArgumentValues`, outside the source slice). -/
structure CollectEnv : Type where
  operationSelectionSet : List Selection
  fragmentDefs : List (String × FragmentDef)
  variableValues : List (String × Bool)
  fieldsOf : SchemaType → String → Option FieldDef
  typeFromAST : String → Option SchemaType
  possibleTypes : SchemaType → List SchemaType
  argumentValues : FieldDef → Selection → Except GoError (List (String × IValue))

/-- Embedding of `findFieldDef` from execute.go (introspection special cases
are a TODO in the source). -/
def findFieldDef (env : CollectEnv) (parentType : SchemaType) (fieldName : String) :
    Option FieldDef :=
  env.fieldsOf parentType fieldName

/-- Embedding of `doesTypeConditionSatisfy` from execute.go: the condition
holds when the schema type named by the condition is the given type, or —
when the given type is abstract — when the given type occurs among its own
possible types (the branch is vacuous for the concrete runtime types the
collector passes, exactly as in the source). -/
def doesTypeConditionSatisfy (env : CollectEnv) (typeCondition : String) (t : SchemaType) :
    Bool :=
  let conditionalType := env.typeFromAST typeCondition
  if conditionalType = some t then true
  else if isAbstractType t then (env.possibleTypes t).contains t
  else false

/-- Assoc lookup standing for `fields[responseKey]` (response key → index of
the node in `childNodes`, playing the role of the Go node pointer). -/
def lookupIndex (fields : List (String × Nat)) (key : String) : Option Nat :=
  match fields with
  | [] => none
  | (k, v) :: rest => if k = key then some v else lookupIndex rest key

/-- Assoc lookup standing for `ctx.Operation().FragmentDef(name)`. -/
def lookupFragment (defs : List (String × FragmentDef)) (name : String) : Option FragmentDef :=
  match defs with
  | [] => none
  | (k, v) :: rest => if k = name then some v else lookupFragment rest name

/-- Replaces the element at one index (the effect of mutating a node through
the pointer shared by the `fields` map and the `childNodes` slice). -/
def modifyAt (l : List ExecutionNode) (i : Nat) (f : ExecutionNode → ExecutionNode) :
    List ExecutionNode :=
  match l, i with
  | [], _ => []
  | x :: rest, 0 => f x :: rest
  | x :: rest, i + 1 => x :: modifyAt rest i f

/-- The mutable state of one run of
`buildChildExecutionNodesForSelectionSet`: the visited-fragment set, the
response-key map, and the output nodes. -/
structure CollectState : Type where
  visitedFragmentNames : List String
  fields : List (String × Nat)
  childNodes : List ExecutionNode

/-- One task of the collection stack: a selection set and the index of the
next selection to process. -/
structure TaskData : Type where
  selectionSet : List Selection
  selectionIndex : Nat

/-- The stack loop of `buildChildExecutionNodesForSelectionSet` (execute.go):
the head of the list is the top of the Go stack; one fuel unit corresponds
to one iteration of the inner selection loop.  The Go code pops a task while
processing its last selection; a task carrying an empty selection set is
never popped and the Go outer loop spins — here it consumes fuel until the
fuel runs out. -/
def nextStack (data : TaskData) (stackRest : List TaskData) : List TaskData :=
  if data.selectionIndex + 1 ≥ data.selectionSet.length then stackRest
  else { data with selectionIndex := data.selectionIndex + 1 } :: stackRest

def buildLoop (env : CollectEnv) (runtimeType : SchemaType) :
    Nat → List TaskData → CollectState → Except GoError CollectState
  | 0, _, _ => .error (.plain "collection fuel exhausted")
  | _ + 1, [], st => .ok st
  | fuel + 1, data :: stackRest, st =>
    if h : data.selectionIndex < data.selectionSet.length then
      match shouldIncludeNode env.variableValues (data.selectionSet.get ⟨data.selectionIndex, h⟩) with
      | .error e => .error e
      | .ok false => buildLoop env runtimeType fuel (nextStack data stackRest) st
      | .ok true =>
        match data.selectionSet.get ⟨data.selectionIndex, h⟩ with
        | .field fieldAlias name dirs ss =>
          match lookupIndex st.fields (fieldResponseKey fieldAlias name) with
          | some idx =>
            buildLoop env runtimeType fuel (nextStack data stackRest)
              { st with childNodes :=
                  (modifyAt st.childNodes idx
                    (fun n => appendDefinition n (.field fieldAlias name dirs ss))) }
          | none =>
            match findFieldDef env runtimeType name with
            | none => buildLoop env runtimeType fuel (nextStack data stackRest) st
            | some fieldDef =>
              match env.argumentValues fieldDef (.field fieldAlias name dirs ss) with
              | .error e => .error e
              | .ok arguments =>
                buildLoop env runtimeType fuel (nextStack data stackRest)
                  { st with
                    childNodes := st.childNodes ++
                      [.mk false [.field fieldAlias name dirs ss] (some fieldDef) arguments []]
                    fields := st.fields ++
                      [(fieldResponseKey fieldAlias name, st.childNodes.length)] }
        | .inlineFragment typeCondition _ selectionSet =>
          match typeCondition with
          | some cond =>
            if doesTypeConditionSatisfy env cond runtimeType then
              buildLoop env runtimeType fuel (⟨selectionSet, 0⟩ :: nextStack data stackRest) st
            else buildLoop env runtimeType fuel (nextStack data stackRest) st
          | none =>
            buildLoop env runtimeType fuel (⟨selectionSet, 0⟩ :: nextStack data stackRest) st
        | .fragmentSpread fragmentName _ =>
          if st.visitedFragmentNames.contains fragmentName then
            buildLoop env runtimeType fuel (nextStack data stackRest) st
          else
            match lookupFragment env.fragmentDefs fragmentName with
            | none =>
              buildLoop env runtimeType fuel (nextStack data stackRest)
                { st with
                  visitedFragmentNames := st.visitedFragmentNames ++ [fragmentName] }
            | some fragmentDef =>
              if doesTypeConditionSatisfy env fragmentDef.typeCondition runtimeType then
                buildLoop env runtimeType fuel
                  (⟨fragmentDef.selectionSet, 0⟩ :: nextStack data stackRest)
                  { st with
                    visitedFragmentNames := st.visitedFragmentNames ++ [fragmentName] }
              else
                buildLoop env runtimeType fuel (nextStack data stackRest)
                  { st with
                    visitedFragmentNames := st.visitedFragmentNames ++ [fragmentName] }
    else
      buildLoop env runtimeType fuel (data :: stackRest) st

/-- The stack seeding of `buildChildExecutionNodesForSelectionSet`: the
operation's selection set for the root, else the selection sets of the
parent's definitions (the Go code fills the LIFO array in reverse so that
earlier definitions pop first; with the head as the top this is the
definitions in order). -/
def initialCollectStack (env : CollectEnv) (parentNode : ExecutionNode) : List TaskData :=
  if parentNode.isRoot then [⟨env.operationSelectionSet, 0⟩]
  else parentNode.definitions.map (fun d => ⟨d.selectionSetOf, 0⟩)

/-- The body of `buildChildExecutionNodesForSelectionSet`: runs the stack
loop on an empty state from the initial stack. -/
def buildChildExecutionNodesForSelectionSet (env : CollectEnv) (parentNode : ExecutionNode)
    (runtimeType : SchemaType) (fuel : Nat) : Except GoError (List ExecutionNode) :=
  match buildLoop env runtimeType fuel (initialCollectStack env parentNode) ⟨[], [], []⟩ with
  | .error e => .error e
  | .ok st => .ok st.childNodes

/-- Assoc lookup standing for `node.Children[runtimeType]`. -/
def lookupChildren (children : List (SchemaType × List ExecutionNode)) (rt : SchemaType) :
    Option (List ExecutionNode) :=
  match children with
  | [] => none
  | (k, v) :: rest => if k = rt then some v else lookupChildren rest rt

/-- Assoc insertion standing for `node.Children[runtimeType] = childNodes`. -/
def insertChildren (children : List (SchemaType × List ExecutionNode)) (rt : SchemaType)
    (cs : List ExecutionNode) : List (SchemaType × List ExecutionNode) :=
  match children with
  | [] => [(rt, cs)]
  | (k, v) :: rest => if k = rt then (k, cs) :: rest else (k, v) :: insertChildren rest rt cs

/-- Stores a children entry on a node. -/
def ExecutionNode.storeChildren : ExecutionNode → SchemaType → List ExecutionNode → ExecutionNode
  | .mk r ds fd av ch, rt, cs => .mk r ds fd av (insertChildren ch rt cs)

/-- Embedding of `collectFields` from execute.go: the memoized entry point.
When `node.Children[runtimeType]` holds a previously built list it is
returned; otherwise the list is built and stored.  The updated node is
returned alongside (the Go code mutates the node in place); the store is
performed unconditionally before returning, as in the source. -/
def collectFields (env : CollectEnv) (node : ExecutionNode) (runtimeType : SchemaType)
    (fuel : Nat) : Except GoError (List ExecutionNode × ExecutionNode) :=
  match lookupChildren node.children runtimeType with
  | some childNodes => .ok (childNodes, node.storeChildren runtimeType childNodes)
  | none =>
    match buildChildExecutionNodesForSelectionSet env node runtimeType fuel with
    | .error e => .error e
    | .ok childNodes => .ok (childNodes, node.storeChildren runtimeType childNodes)

/-- The DFS linearization of the included field selections that the stack
machine of `buildChildExecutionNodesForSelectionSet` visits: identical stack
discipline, directive evaluation, fragment bookkeeping and type-condition
checks as `buildLoop`, but no schema lookups and no node building.  This is
the reference notion of "textual order" against which coalescing is
stated. -/
def traceLoop (env : CollectEnv) (runtimeType : SchemaType) :
    Nat → List TaskData → List String → Except GoError (List Selection)
  | 0, _, _ => .error (.plain "collection fuel exhausted")
  | _ + 1, [], _ => .ok []
  | fuel + 1, data :: stackRest, visited =>
    if h : data.selectionIndex < data.selectionSet.length then
      match shouldIncludeNode env.variableValues (data.selectionSet.get ⟨data.selectionIndex, h⟩) with
      | .error e => .error e
      | .ok false => traceLoop env runtimeType fuel (nextStack data stackRest) visited
      | .ok true =>
        match data.selectionSet.get ⟨data.selectionIndex, h⟩ with
        | .field fieldAlias name dirs ss =>
          match traceLoop env runtimeType fuel (nextStack data stackRest) visited with
          | .error e => .error e
          | .ok rest => .ok (.field fieldAlias name dirs ss :: rest)
        | .inlineFragment typeCondition _ selectionSet =>
          match typeCondition with
          | some cond =>
            if doesTypeConditionSatisfy env cond runtimeType then
              traceLoop env runtimeType fuel (⟨selectionSet, 0⟩ :: nextStack data stackRest)
                visited
            else traceLoop env runtimeType fuel (nextStack data stackRest) visited
          | none =>
            traceLoop env runtimeType fuel (⟨selectionSet, 0⟩ :: nextStack data stackRest) visited
        | .fragmentSpread fragmentName _ =>
          if visited.contains fragmentName then
            traceLoop env runtimeType fuel (nextStack data stackRest) visited
          else
            match lookupFragment env.fragmentDefs fragmentName with
            | none => traceLoop env runtimeType fuel (nextStack data stackRest)
                (visited ++ [fragmentName])
            | some fragmentDef =>
              if doesTypeConditionSatisfy env fragmentDef.typeCondition runtimeType then
                traceLoop env runtimeType fuel
                  (⟨fragmentDef.selectionSet, 0⟩ :: nextStack data stackRest)
                  (visited ++ [fragmentName])
              else traceLoop env runtimeType fuel (nextStack data stackRest)
                (visited ++ [fragmentName])
    else traceLoop env runtimeType fuel (data :: stackRest) visited

/-- The field selections of a trace sharing one response key, in trace
order. -/
def filterKey (k : String) (tr : List Selection) : List Selection :=
  tr.filter (fun s => selectionResponseKey s == k)

/-- The output nodes sharing one response key. -/
def nodesKey (k : String) (ns : List ExecutionNode) : List ExecutionNode :=
  ns.filter (fun n => nodeResponseKey n == k)

/-- The definitions the collector coalesces for one response key: the key's
field selections in trace order, minus the leading ones whose field name is
not defined on the runtime type (those are silently dropped until a defined
one creates the node; from then on every selection with the key is
appended). -/
def coalesceTrace (env : CollectEnv) (rt : SchemaType) (k : String) (tr : List Selection) :
    List Selection :=
  (filterKey k tr).dropWhile (fun s => (findFieldDef env rt (selectionFieldName s)).isNone)

/-- The node the collector ends up with for one response key, reconstructed
from its coalesced definitions: field definition and argument values come
from the first definition. -/
def mkFieldNode (env : CollectEnv) (rt : SchemaType) (defs : List Selection) : ExecutionNode :=
  match defs with
  | [] => .mk false [] none [] []
  | d :: _ =>
    match findFieldDef env rt (selectionFieldName d) with
    | none => .mk false defs none [] []
    | some fd =>
      .mk false defs (some fd)
        (match env.argumentValues fd d with
         | .ok a => a
         | .error _ => []) []

/-- The per-key effect of processing a trace, given the nodes already present
for the key (none, or exactly one): an existing node absorbs every further
selection with the key; otherwise the key's coalesced selections (when any)
form one new node. -/
def applyTrace (env : CollectEnv) (rt : SchemaType) (k : String)
    (cur : List ExecutionNode) (tr : List Selection) : List ExecutionNode :=
  match cur with
  | [] =>
    match coalesceTrace env rt k tr with
    | [] => []
    | l => [mkFieldNode env rt l]
  | [n] => [n.withDefinitions (n.definitions ++ filterKey k tr)]
  | other => other

/-- The invariant of the collection machine: every built node has at least
one definition; a response key mapped by `fields` to an index denotes the
node at that index, which is the unique output node with that key; an
unmapped key has no node. -/
def StInv (fields : List (String × Nat)) (childNodes : List ExecutionNode) : Prop :=
  (∀ n ∈ childNodes, n.definitions ≠ []) ∧
  (∀ k idx, lookupIndex fields k = some idx →
    ∃ n, childNodes[idx]? = some n ∧ nodeResponseKey n = k ∧
      nodesKey k childNodes = [n]) ∧
  (∀ k, lookupIndex fields k = none → nodesKey k childNodes = [])

/-- A demo selection carrying both a `@skip(if: false)` and an
`@include(if: true)` directive. -/
def demoDirectedField : Selection :=
  .field none "a" [⟨"skip", some (.lit false)⟩, ⟨"include", some (.lit true)⟩] []

/-- A demo collection environment: one top-level field `a` on runtime type
`Query`, no fragments, no directives. -/
def demoEnv : CollectEnv where
  operationSelectionSet := [Selection.field none "a" [] []]
  fragmentDefs := []
  variableValues := []
  fieldsOf := fun _ fn => if fn = "a" then some ⟨"a"⟩ else none
  typeFromAST := fun _ => none
  possibleTypes := fun _ => []
  argumentValues := fun _ _ => .ok []

/-- The root ExecutionNode (nil parent, nil definitions). -/
def demoRootNode : ExecutionNode := .mk true [] none [] []

/-- A demo collection environment whose operation selects the field `a`
twice (the query \x7b a a \x7d): the two selections share the response key
`a`. -/
def demoDupEnv : CollectEnv where
  operationSelectionSet :=
    [Selection.field none "a" [] [], Selection.field none "a" [] []]
  fragmentDefs := []
  variableValues := []
  fieldsOf := fun _ fn => if fn = "a" then some ⟨"a"⟩ else none
  typeFromAST := fun _ => none
  possibleTypes := fun _ => []
  argumentValues := fun _ _ => .ok []

/-! ## Value completer (execute.go) -/

/-- A raw Go `interface\x7b\x7d` value as returned by a field resolver and
consumed by the completer: nil, a scalar (int / string / bool), a slice, or
a `*graphql.Error` value (resolvers may return an error value to signify
failure).  Go pointers to slices (which the completer unwraps through
reflection) are not distinguished from the slices themselves. -/
inductive RawValue : Type where
  | null
  | int (n : Int)
  | str (s : String)
  | boolean (b : Bool)
  | list (elems : List RawValue)
  | gqlError (e : GoError)

/-- Embedding of `values.IsNullish` as the completer uses it: the value is
the nil interface value. -/
def IsNullish : RawValue → Bool
  | .null => true
  | _ => false

/-- An output (field return) type as the completer sees it: a leaf type
(scalar or enum, `graphql.LeafType`) carrying its name and its
`CoerceResultValue` function, an object type, an abstract type (union or
interface, `graphql.AbstractType`), a list type, or a non-null wrapper.
`list` and `nonNull` are the `graphql.WrappingType`s. -/
inductive OutType : Type where
  | leaf (name : String) (coerceResult : RawValue → Except GoError RawValue)
  | object (name : String)
  | abstract (name : String)
  | list (elementType : OutType)
  | nonNull (innerType : OutType)

/-- Embedding of the `graphql.WrappingType` type assertion: list and
non-null types are wrapping. -/
def isWrappingType : OutType → Bool
  | .list _ => true
  | .nonNull _ => true
  | _ => false

/-- Embedding of the `returnType.(graphql.NonNull)` assertion followed by
`InnerType()`: the non-null flag and the unwrapped type. -/
def unwrapNonNull : OutType → Bool × OutType
  | .nonNull t => (true, t)
  | t => (false, t)

/-- Rendering of a type for the "unexpected type" error message (`%v` on a
`graphql.Type`). -/
def outTypeString : OutType → String
  | .leaf n _ => n
  | .object n => n
  | .abstract n => n
  | .list t => "[" ++ outTypeString t ++ "]"
  | .nonNull t => outTypeString t ++ "!"

/-- Mirrors the Go `ResultKind` enumeration (`ResultKindUnresolved`,
`ResultKindNil`, `ResultKindLeaf`, `ResultKindList`,
`ResultKindObject`). -/
inductive ResultKind : Type where
  | Unresolved
  | Nil
  | Leaf
  | List
  | Object
deriving DecidableEq, Repr

/-- The `Value` field of a `ResultNode`: nothing, a coerced leaf value, the
child result nodes of a list (as heap addresses), or the child result nodes
of an object (the `FieldValues` of `ObjectResultValue`, as heap
addresses). -/
inductive RValue : Type where
  | none
  | leafVal (v : RawValue)
  | listVal (addrs : List Nat)
  | objectVal (addrs : List Nat)

/-- Mirrors the Go `ResultNode`: kind, value, parent pointer (as an optional
heap address; `none` for the root result) and the non-null flag set by
`SetIsNonNull`. -/
structure ResultNode : Type where
  kind : ResultKind
  value : RValue
  parent : Option Nat
  isNonNull : Bool

/-- The in-place update `result.Kind = k; result.Value = v` on a
ResultNode: parent and non-null flag are untouched. -/
def setKindValue (k : ResultKind) (v : RValue) (n : ResultNode) : ResultNode :=
  { n with kind := k, value := v }

/-- A freshly allocated ResultNode (`make([]ResultNode, …)` plus the
parent assignment and optional `SetIsNonNull`): kind Unresolved, no
value. -/
def newResultNode (parent : Option Nat) (nonNullFlag : Bool) : ResultNode :=
  ⟨.Unresolved, .none, parent, nonNullFlag⟩

/-- Pointer-indexed view of the `ResultNode` tree: Go's `*ResultNode`
pointers become indices into this list, which only grows (nodes are never
deallocated during completion). -/
def modifyAtR (l : List ResultNode) (i : Nat) (f : ResultNode → ResultNode) :
    List ResultNode :=
  match l, i with
  | [], _ => []
  | x :: rest, 0 => f x :: rest
  | x :: rest, i + 1 => x :: modifyAtR rest i f

/-- The mutable state that one `ExecuteNodeTask` touches while completing a
value: the result-node heap, the error list of the execution context, and
the addresses of the child result nodes for which tasks were dispatched by
`dispatchTasksForObject`. -/
structure ExecState : Type where
  heap : List ResultNode
  errors : List GoError
  tasks : List Nat

/-- Modelled from the spec: setting a ResultNode to Nil discards its stored
value ("the parent is immediately set to Nil (and its stored value
discarded)"). -/
def setNilR (heap : List ResultNode) (addr : Nat) : List ResultNode :=
  modifyAtR heap addr (setKindValue .Nil .none)

/-- Modelled from the spec: the null-bubbling walk. "When a non-null-required
node is set to Nil, the parent is immediately set to Nil (and its stored
value discarded); this repeats up the ResultNode chain. If bubbling reaches
the root, data in the response is null."  The walk starts at a node already
set to Nil; the fuel bounds the ascent (parent addresses strictly decrease
in every heap the completer builds). -/
def bubbleNil : List ResultNode → Nat → Nat → List ResultNode
  | heap, _, 0 => heap
  | heap, addr, fuel + 1 =>
    match heap[addr]? with
    | .none => heap
    | .some n =>
      if n.isNonNull then
        match n.parent with
        | .none => heap
        | .some p => bubbleNil (setNilR heap p) p fuel
      else heap

/-- Modelled from the spec: `executor.AppendError(e, result)` "records an
error against the run" (appended to the execution context's error list) and
performs the null-bubbling walk from the nil'ed result node. -/
def AppendError (e : GoError) (addr : Nat) (st : ExecState) : ExecState :=
  { st with
    errors := st.errors ++ [e],
    heap := bubbleNil st.heap addr st.heap.length }

/-- The per-task data that `ExecuteNodeTask`'s completion methods read: the
ExecutionNode's coalesced definitions, the names used in error messages
(`parentFieldType(task.ctx, node).Name()` and `node.Field.Name()`), and
three functions closing over parts of the engine outside the embedded file:
`locationOf` (modelled from the spec: `graphql.ErrorLocationOfASTNode`, the
start location of an AST node), `pathOf` (modelled from the spec:
`result.Path()`, "computed by walking result → parent → … → root,
reversing"), and `collectChildFlags` (the outcome of `collectFields` on the
object type followed by `graphql.IsNonNullType(childNode.Field.Type())` for
each collected child, which is all `dispatchTasksForObject` reads of
them). -/
structure TaskCtx : Type where
  nodeDefinitions : List Selection
  parentTypeName : String
  fieldName : String
  locationOf : Selection → ErrorLocation
  pathOf : Nat → ResponsePath
  collectChildFlags : String → Except GoError (List Bool)

/-- The error-wrapping step of `handleNodeError` (execute.go): a
`*graphql.Error` gets its `Locations` and `Path` overwritten with the
computed values; any other error is wrapped via
`graphql.NewError(err.Error(), locations, path)`. -/
def wrapNodeError (ctx : TaskCtx) (err : GoError) (addr : Nat) : GoError :=
  match err with
  | .core m _ _ x c o k =>
    .core m (ctx.nodeDefinitions.map ctx.locationOf) (some (ctx.pathOf addr)) x c o k
  | .plain m =>
    NewError m [.locationList (ctx.nodeDefinitions.map ctx.locationOf),
      .path (ctx.pathOf addr)]

/-- Embedding of `handleNodeError` (execute.go): attach the definitions'
locations and the result path to the error, set the result node to a nil
value, and append the error via the executor (which performs the
null-bubbling walk). -/
def handleNodeError (ctx : TaskCtx) (err : GoError) (addr : Nat) (st : ExecState) :
    ExecState :=
  AppendError (wrapNodeError ctx err addr) addr
    { st with heap := setNilR st.heap addr }

/-- Modelled from the spec: `graphql.NewDefaultResultCoercionError` wraps a
failed result coercion ("if the error is not already kind=Coercion, wrap as
a default result-coercion error"); it keeps the original error as the cause
and is tagged `Coercion`. -/
def NewDefaultResultCoercionError (typeName : String) (cause : GoError) : GoError :=
  NewError ("Cannot serialize result value to type " ++ typeName ++ ".")
    [.err cause, .kind .Coercion]

/-- Embedding of `completeLeafValue` (execute.go): run the leaf type's
`CoerceResultValue`; on failure wrap a non-Coercion error in the default
result-coercion error and fail the node, on success store the coerced value
with kind Leaf. -/
def completeLeafValue (ctx : TaskCtx) (typeName : String)
    (coerceResult : RawValue → Except GoError RawValue) (addr : Nat) (value : RawValue)
    (st : ExecState) : Bool × ExecState :=
  match coerceResult value with
  | .error err =>
    if err.isCore = true ∧ err.errKind = .Coercion then
      (false, handleNodeError ctx err addr st)
    else
      (false, handleNodeError ctx (NewDefaultResultCoercionError typeName err) addr st)
  | .ok coercedValue =>
    (true, { st with heap := (modifyAtR st.heap addr
        (setKindValue .Leaf (.leafVal coercedValue))) })

/-- Embedding of `dispatchTasksForObject` (execute.go): allocate one
ResultNode per child ExecutionNode with this result as parent, set the
non-null flag from the child field's type, store kind Object with the child
addresses on the result, and dispatch one task per child (the task's source
value is not tracked; only the dispatched result addresses are). -/
def dispatchTasksForObject (result : Nat) (childFlags : List Bool) (st : ExecState) :
    ExecState :=
  { st with
    heap := ((modifyAtR st.heap result (setKindValue .Object
        (.objectVal ((List.range childFlags.length).map
          (fun i => st.heap.length + i))))) ++
      childFlags.map (fun f => newResultNode (some result) f)),
    tasks := (st.tasks ++ (List.range childFlags.length).map
      (fun i => st.heap.length + i)) }

/-- Embedding of `completeObjectValue` (execute.go): collect the child
fields under the object type (failure is handled as a node error) and
dispatch one task per child node. -/
def completeObjectValue (ctx : TaskCtx) (typeName : String) (addr : Nat)
    (st : ExecState) : Bool × ExecState :=
  match ctx.collectChildFlags typeName with
  | .error err => (false, handleNodeError ctx err addr st)
  | .ok childFlags => (true, dispatchTasksForObject addr childFlags st)

/-- Embedding of `completeNonWrappingValue` (execute.go), in the source's
order: nullish values resolve quietly to a nil value (non-null enforcement
belongs to `completeWrappingValue`); a `*graphql.Error` value fails the
node; then the switch on the type: leaf, object, abstract — the abstract
case is `completeAbstractValue`, whose body is `panic("unimplemented")`,
modelled as the `Except` error carrying the panic message — and the default
case for remaining (wrapping) types.  The Bool is Go's `ok` return. -/
def completeNonWrappingValue (ctx : TaskCtx) (returnType : OutType) (addr : Nat)
    (value : RawValue) (st : ExecState) : Except String (Bool × ExecState) :=
  if IsNullish value then
    .ok (true, { st with heap := (modifyAtR st.heap addr
        (setKindValue .Nil .none)) })
  else
    match value with
    | .gqlError e => .ok (false, handleNodeError ctx e addr st)
    | _ =>
      match returnType with
      | .leaf typeName coerceResult =>
        .ok (completeLeafValue ctx typeName coerceResult addr value st)
      | .object typeName => .ok (completeObjectValue ctx typeName addr st)
      | .abstract _ => .error "unimplemented"
      | other =>
        .ok (false, handleNodeError ctx
          (NewError ("Cannot complete value of unexpected type \"" ++
            outTypeString other ++ "\".") []) addr st)

/-- Modelled from the spec: `result.IsNil()` — the node's kind is Nil. -/
def resultIsNil (heap : List ResultNode) (addr : Nat) : Bool :=
  match heap[addr]? with
  | .none => false
  | .some n => n.kind = ResultKind.Nil

/-- Modelled from the spec: `result.Parent.IsNil()` — "at the start of each
completion step, if result.parent is already Nil, stop".  A node without a
parent (the root) is never stopped this way. -/
def parentIsNil (heap : List ResultNode) (addr : Nat) : Bool :=
  match heap[addr]? with
  | .none => false
  | .some n =>
    match n.parent with
    | .none => false
    | .some p => resultIsNil heap p

/-- The inline element loop of `completeWrappingValue` (execute.go, the
non-wrapping-element branch): complete each element left to right; when an
element completion reports failure and that failure nil'ed the list's own
result node, stop processing the remaining elements. -/
def completeListElemsLoop (ctx : TaskCtx) (elementType : OutType) (listAddr : Nat) :
    List (Nat × RawValue) → ExecState → Except String ExecState
  | [], st => .ok st
  | (a, v) :: rest, st =>
    match completeNonWrappingValue ctx elementType a v st with
    | .error msg => .error msg
    | .ok (ok, st1) =>
      if ok then completeListElemsLoop ctx elementType listAddr rest st1
      else if resultIsNil st1.heap listAddr then .ok st1
      else completeListElemsLoop ctx elementType listAddr rest st1

/-- The list-result setup of `completeWrappingValue` (execute.go): allocate
one ResultNode per element with the list as parent, each flagged non-null
exactly when the list type itself was wrapped in non-null (`isNonNullType`
at this point refers to the list type's own non-nullness), and store kind
List with the element addresses. -/
def setupListResult (result : Nat) (isNonNullType : Bool) (numElements : Nat)
    (st : ExecState) : ExecState :=
  { st with heap :=
      ((modifyAtR st.heap result (setKindValue .List
        (.listVal ((List.range numElements).map
          (fun i => st.heap.length + i))))) ++
      List.replicate numElements (newResultNode (some result) isNonNullType)) }

/-- The element address/value pairs for a list value allocated at the end of
the current heap. -/
def elemSlots (base : Nat) (elems : List RawValue) : List (Nat × RawValue) :=
  elems.enum.map (fun p => (base + p.1, p.2))

/-- One entry of the local work queue of `completeWrappingValue`
(execute.go, the `ValueNode` struct): a wrapping return type, the target
result address, and the raw value. -/
structure ValueNode : Type where
  returnType : OutType
  result : Nat
  value : RawValue

/-- The queue loop of `completeWrappingValue` (execute.go): pop from the
front, skip when the parent is already nil, unwrap non-null, handle nullish
values (error on non-null, quiet nil otherwise), hand non-list types to
`completeNonWrappingValue`, require an iterable for list types, then
allocate the element nodes — pushing wrapping-typed elements onto the back
of the queue and completing non-wrapping elements inline.  One fuel unit
per queue pop. -/
def runCompleteQueue (ctx : TaskCtx) :
    Nat → List ValueNode → ExecState → Except String ExecState
  | 0, _, _ => .error "completion fuel exhausted"
  | _ + 1, [], st => .ok st
  | fuel + 1, vn :: queueRest, st =>
    if parentIsNil st.heap vn.result then
      runCompleteQueue ctx fuel queueRest st
    else
      match unwrapNonNull vn.returnType with
      | (isNonNullType, returnType) =>
        if IsNullish vn.value then
          if isNonNullType then
            runCompleteQueue ctx fuel queueRest
              (handleNodeError ctx
                (NewError ("Cannot return null for non-nullable field " ++
                  ctx.parentTypeName ++ "." ++ ctx.fieldName ++ ".") []) vn.result st)
          else
            runCompleteQueue ctx fuel queueRest
              { st with heap := (modifyAtR st.heap vn.result
                  (setKindValue .Nil .none)) }
        else
          match returnType with
          | .list elementType =>
            match vn.value with
            | .list elems =>
              if isWrappingType elementType then
                runCompleteQueue ctx fuel
                  (queueRest ++ (elemSlots st.heap.length elems).map
                    (fun p => ⟨elementType, p.1, p.2⟩))
                  (setupListResult vn.result isNonNullType elems.length st)
              else
                match completeListElemsLoop ctx elementType vn.result
                    (elemSlots st.heap.length elems)
                    (setupListResult vn.result isNonNullType elems.length st) with
                | .error msg => .error msg
                | .ok st1 => runCompleteQueue ctx fuel queueRest st1
            | _ =>
              runCompleteQueue ctx fuel queueRest
                (handleNodeError ctx
                  (NewError ("Expected Iterable, but did not find one for field " ++
                    ctx.parentTypeName ++ "." ++ ctx.fieldName ++ ".") []) vn.result st)
          | rt =>
            match completeNonWrappingValue ctx rt vn.result vn.value st with
            | .error msg => .error msg
            | .ok (_, st1) => runCompleteQueue ctx fuel queueRest st1

/-- Embedding of `completeWrappingValue` (execute.go): a `*graphql.Error`
value fails the node immediately; otherwise the queue loop runs from a
single seed entry. -/
def completeWrappingValue (ctx : TaskCtx) (fuel : Nat) (returnType : OutType)
    (addr : Nat) (value : RawValue) (st : ExecState) : Except String ExecState :=
  match value with
  | .gqlError e => .ok (handleNodeError ctx e addr st)
  | v => runCompleteQueue ctx fuel [⟨returnType, addr, v⟩] st

/-- Embedding of `completeValue` (execute.go): wrapping types go through the
queue-based `completeWrappingValue`, other types directly through
`completeNonWrappingValue`. -/
def completeValue (ctx : TaskCtx) (fuel : Nat) (returnType : OutType) (addr : Nat)
    (value : RawValue) (st : ExecState) : Except String ExecState :=
  if isWrappingType returnType then
    completeWrappingValue ctx fuel returnType addr value st
  else
    match completeNonWrappingValue ctx returnType addr value st with
    | .error msg => .error msg
    | .ok (_, st1) => .ok st1

/-- The heap-shape invariant every completion heap satisfies: a parent
pointer addresses an earlier slot (children are always allocated after
their parent). -/
def parentDecreasing (heap : List ResultNode) : Prop :=
  ∀ (addr : Nat) (n : ResultNode) (p : Nat),
    heap[addr]? = some n → n.parent = some p → p < addr

/-- The outcome the null-bubbling rule establishes along the visited parent
chain: the node at the address is Nil and, when it is marked non-null and
has a parent, the parent is Nil with the same property recursively (a
nullable or parentless node ends the chain). -/
inductive NilBubbled (heap : List ResultNode) : Nat → Prop where
  | absorb (addr : Nat) (n : ResultNode) (h : heap[addr]? = some n)
      (hk : n.kind = .Nil) (hn : n.isNonNull = false) : NilBubbled heap addr
  | root (addr : Nat) (n : ResultNode) (h : heap[addr]? = some n)
      (hk : n.kind = .Nil) (hp : n.parent = none) : NilBubbled heap addr
  | bubble (addr p : Nat) (n : ResultNode) (h : heap[addr]? = some n)
      (hk : n.kind = .Nil) (hp : n.parent = some p) (hrec : NilBubbled heap p) :
      NilBubbled heap addr

/-- A demo task context for concrete completion runs: a single definition,
field `a` on `Query`, fixed locations and paths, no child fields on any
object type. -/
def demoTaskCtx : TaskCtx where
  nodeDefinitions := [Selection.field none "a" [] []]
  parentTypeName := "Query"
  fieldName := "a"
  locationOf := fun _ => ⟨1, 2⟩
  pathOf := fun _ => ⟨[.fieldName "a"]⟩
  collectChildFlags := fun _ => .ok []

/-- A demo Int leaf type whose result coercion accepts integers unchanged
and rejects everything else with a plain error. -/
def demoIntLeaf : OutType :=
  .leaf "Int" (fun v => match v with
    | .int n => .ok (.int n)
    | _ => .error (.plain "not an int"))

/-- A demo completion heap: a nullable List node at 0 with two non-null
children at 1 and 2 (the shape `completeWrappingValue` builds for a
`[Int!]`-style value of two elements, before the elements are
completed). -/
def demoHeap : List ResultNode :=
  [⟨.List, .listVal [1, 2], none, false⟩,
   ⟨.Unresolved, .none, some 0, true⟩,
   ⟨.Unresolved, .none, some 0, true⟩]

/-- The demo completion state over `demoHeap`. -/
def demoListState : ExecState := ⟨demoHeap, [], []⟩

/-- The state after the first element of `demoListState` fails coercion:
the element and (by bubbling, since the element is flagged non-null) the
list node are Nil, the wrapped coercion error is recorded, the second
element is untouched. -/
def demoBrokenState : ExecState :=
  ⟨[⟨.Nil, .none, none, false⟩,
    ⟨.Nil, .none, some 0, true⟩,
    ⟨.Unresolved, .none, some 0, true⟩],
   [.core "Cannot serialize result value to type Int." [⟨1, 2⟩]
      (some ⟨[.fieldName "a"]⟩) none (some (.plain "not an int")) "" .Coercion],
   []⟩

/-- The heap that the C1 counterexample run produces: a non-null list whose
single element was resolved to Nil quietly. -/
def demoQuietHeap : List ResultNode :=
  [⟨.List, .listVal [1], none, true⟩, ⟨.Nil, .none, some 0, true⟩]

theorem applyErrArgs_ok (args : List ErrArg) (h : ∀ a ∈ args, a.isUnknown = false) :
    ∀ e : ErrorFields, ∃ e' : ErrorFields, applyErrArgs e args = .ok e' ∧
      e'.Kind = args.foldl (fun k a => match a with | .kind k2 => k2 | _ => k) e.Kind ∧
      e'.Err = args.foldl (fun c a => match a with | .err er => some er | _ => c) e.Err := by
  induction args with
  | nil => intro e; exact ⟨e, rfl, rfl, rfl⟩
  | cons a rest ih =>
    intro e
    have ha : a.isUnknown = false := h a (List.mem_cons_self a rest)
    have hrest : ∀ a ∈ rest, a.isUnknown = false := fun x hx => h x (List.mem_cons_of_mem a hx)
    cases a with
    | location l => simpa [applyErrArgs] using ih hrest { e with Locations := [l] }
    | locationList ls => simpa [applyErrArgs] using ih hrest { e with Locations := ls }
    | path p => simpa [applyErrArgs] using ih hrest { e with Path := some p }
    | extensions x => simpa [applyErrArgs] using ih hrest { e with Extensions := some x }
    | err er => simpa [applyErrArgs] using ih hrest { e with Err := some er }
    | op o => simpa [applyErrArgs] using ih hrest { e with Op := o }
    | kind k => simpa [applyErrArgs] using ih hrest { e with Kind := k }
    | unknownArg t v => simp [ErrArg.isUnknown] at ha

theorem inheritLocations_Kind (prev : GoError) (e : ErrorFields) :
    (inheritLocations prev e).Kind = e.Kind := by
  unfold inheritLocations
  split
  · split
    · split <;> rfl
    · rfl
  · rfl

theorem inheritPath_Kind (prev : GoError) (e : ErrorFields) :
    (inheritPath prev e).Kind = e.Kind := by
  unfold inheritPath
  split
  · split <;> rfl
  · rfl

theorem inheritExtensions_Kind (prev : GoError) (e : ErrorFields) :
    (inheritExtensions prev e).Kind = e.Kind := by
  unfold inheritExtensions
  split
  · split <;> rfl
  · rfl

theorem inheritKind_Kind (prev : GoError) (e : ErrorFields) :
    (inheritKind prev e).Kind =
      if e.Kind = .Other then
        (match prev with
         | .core _ _ _ _ _ _ k => k
         | .plain _ => e.Kind)
      else e.Kind := by
  unfold inheritKind
  split
  · cases prev <;> simp_all
  · simp_all

theorem propagateFromCause_Kind (e : ErrorFields) :
    (propagateFromCause e).Kind =
      if e.Kind = .Other then
        (match e.Err with
         | some (.core _ _ _ _ _ _ k) => k
         | _ => e.Kind)
      else e.Kind := by
  unfold propagateFromCause
  cases he : e.Err with
  | none => simp
  | some prev =>
    rw [inheritKind_Kind, inheritExtensions_Kind, inheritPath_Kind, inheritLocations_Kind]
    cases prev <;> simp

/-- C8: for every `Error` constructed by `NewError` from recognized arguments,
if the kind assigned by the arguments is `Other` (unspecified) the new error
adopts the kind of its cause when the cause is itself a core `Error`, and an
explicit non-`Other` kind argument is never overwritten by the cause's kind. -/
theorem newError_kind_propagation (msg : String) (args : List ErrArg)
    (h : ∀ a ∈ args, a.isUnknown = false) :
    (NewError msg args).isCore = true ∧
    (explicitKind args ≠ .Other → (NewError msg args).errKind = explicitKind args) ∧
    (explicitKind args = .Other →
      (NewError msg args).errKind =
        (match explicitCause args with
         | some (.core _ _ _ _ _ _ k) => k
         | _ => .Other)) := by
  obtain ⟨e', hok, hkind, herr⟩ := applyErrArgs_ok args h { Message := msg }
  have hk : e'.Kind = explicitKind args := hkind
  have he : e'.Err = explicitCause args := herr
  simp only [NewError, hok]
  refine ⟨rfl, ?_, ?_⟩
  · intro hne
    simp only [GoError.errKind, propagateFromCause_Kind, hk, he]
    rw [if_neg hne]
  · intro hother
    simp only [GoError.errKind, propagateFromCause_Kind, hk, he]
    rw [if_pos hother]
    cases hc : explicitCause args with
    | none => exact hother
    | some prev => cases prev <;> simp [hother]

theorem newError_kind_propagation_witness :
    (∀ a ∈ [ErrArg.err (.core "inner" [] none none none "" .Execution)],
        a.isUnknown = false) ∧
    ((NewError "outer" [ErrArg.err (.core "inner" [] none none none "" .Execution)]).isCore
        = true ∧
      (explicitKind [ErrArg.err (.core "inner" [] none none none "" .Execution)] ≠ .Other →
        (NewError "outer" [ErrArg.err (.core "inner" [] none none none "" .Execution)]).errKind
          = explicitKind [ErrArg.err (.core "inner" [] none none none "" .Execution)]) ∧
      (explicitKind [ErrArg.err (.core "inner" [] none none none "" .Execution)] = .Other →
        (NewError "outer" [ErrArg.err (.core "inner" [] none none none "" .Execution)]).errKind
          = (match explicitCause [ErrArg.err (.core "inner" [] none none none "" .Execution)] with
             | some (.core _ _ _ _ _ _ k) => k
             | _ => .Other))) :=
  ⟨by decide, newError_kind_propagation "outer"
    [ErrArg.err (.core "inner" [] none none none "" .Execution)] (by decide)⟩

theorem applyErrArgs_unknown (t v : String) (post : List ErrArg) :
    ∀ (pre : List ErrArg), (∀ a ∈ pre, a.isUnknown = false) → ∀ e : ErrorFields,
      applyErrArgs e (pre ++ .unknownArg t v :: post) =
        .error ("unknown type " ++ t ++ ", value " ++ v ++ " in error call") := by
  intro pre
  induction pre with
  | nil => intro _ e; rfl
  | cons a rest ih =>
    intro h e
    have ha : a.isUnknown = false := h a (List.mem_cons_self a rest)
    have hrest : ∀ x ∈ rest, x.isUnknown = false := fun x hx => h x (List.mem_cons_of_mem a hx)
    cases a with
    | location l => simpa [applyErrArgs] using ih hrest { e with Locations := [l] }
    | locationList ls => simpa [applyErrArgs] using ih hrest { e with Locations := ls }
    | path p => simpa [applyErrArgs] using ih hrest { e with Path := some p }
    | extensions x => simpa [applyErrArgs] using ih hrest { e with Extensions := some x }
    | err er => simpa [applyErrArgs] using ih hrest { e with Err := some er }
    | op o => simpa [applyErrArgs] using ih hrest { e with Op := o }
    | kind k => simpa [applyErrArgs] using ih hrest { e with Kind := k }
    | unknownArg t' v' => simp [ErrArg.isUnknown] at ha

/-- C10: whenever the variadic arguments of `NewError` contain a value whose
type is not one of the recognized ones, `NewError` returns the plain
`fmt.Errorf` error reporting the unknown type (the first such argument wins),
not a `*Error` carrying the message and the remaining arguments. -/
theorem newError_unknown_argument (msg t v : String) (pre post : List ErrArg)
    (h : ∀ a ∈ pre, a.isUnknown = false) :
    NewError msg (pre ++ .unknownArg t v :: post) =
      .plain ("unknown type " ++ t ++ ", value " ++ v ++ " in error call") := by
  unfold NewError
  rw [applyErrArgs_unknown t v post pre h]

theorem newError_unknown_argument_witness :
    (∀ a ∈ [ErrArg.kind .Coercion], a.isUnknown = false) ∧
    NewError "bad call" ([ErrArg.kind .Coercion] ++ .unknownArg "int" "42" :: []) =
      .plain ("unknown type " ++ "int" ++ ", value " ++ "42" ++ " in error call") :=
  ⟨by decide, newError_unknown_argument "bad call" "int" "42" [ErrArg.kind .Coercion] [] (by decide)⟩

theorem coerceInputObject_unfold (tname : String)
    (fields : List (String × InType × Option IValue)) (objectValue : List (String × IValue))
    (blameNode : Option ErrorLocation) (path : ValuePath) :
    coerceInputObject tname fields objectValue blameNode path =
      (if (((fields.map (coerceObjectField blameNode path objectValue)).foldl
              (fun acc r => acc ++ r.2) ([] : List GoError))
            ++ objectValue.foldl (unknownFieldStep blameNode path tname fields)
                ([] : List GoError)).length > 0
       then (.null,
         ((fields.map (coerceObjectField blameNode path objectValue)).foldl
              (fun acc r => acc ++ r.2) ([] : List GoError))
            ++ objectValue.foldl (unknownFieldStep blameNode path tname fields)
                ([] : List GoError))
       else (.obj ((fields.map (coerceObjectField blameNode path objectValue)).filterMap (·.1)),
         [])) := by
  rw [coerceInputObject]
  rw [List.attach_map_val fields (coerceObjectField blameNode path objectValue)]

theorem coerceValueImpl_inputObject (tname : String)
    (fields : List (String × InType × Option IValue)) (objectValue : List (String × IValue))
    (blameNode : Option ErrorLocation) (path : ValuePath) :
    coerceValueImpl (.obj objectValue) (.inputObject tname fields) blameNode path =
      coerceInputObject tname fields objectValue blameNode path := by
  rw [coerceValueImpl]

/-- C6: coercing a null value against `NonNull(T)` yields a non-empty error
list containing the error `Expected non-nullable type T not to be null`;
coercing null against a nullable type returns null with an empty error list;
and a non-null value against `NonNull(T)` is coerced by recursing on `T`. -/
theorem coerceValue_null_handling (t : InType) (blameNode : Option ErrorLocation)
    (path : ValuePath) (v : IValue)
    (hnn : isNonNullInType t = false) (hv : v ≠ .null) :
    (coerceValueImpl .null (.nonNull t) blameNode path =
      (.null, [newCoercionError
        ("Expected non-nullable type " ++ typeString (.nonNull t) ++ " not to be null")
        blameNode path "" none]) ∧
      (coerceValueImpl .null (.nonNull t) blameNode path).2 ≠ []) ∧
    coerceValueImpl .null t blameNode path = (.null, []) ∧
    coerceValueImpl v (.nonNull t) blameNode path = coerceValueImpl v t blameNode path := by
  refine ⟨⟨?_, ?_⟩, ?_, ?_⟩
  · rw [coerceValueImpl]
  · rw [coerceValueImpl]
    simp
  · cases t <;>
      first
        | ((rw [coerceValueImpl] <;> simp); done)
        | simp [isNonNullInType] at hnn
  · cases v <;>
      first
        | ((rw [coerceValueImpl] <;> simp); done)
        | simp_all

theorem coerceValue_null_handling_witness :
    isNonNullInType demoIntScalar = false ∧ IValue.int 5 ≠ .null ∧
    ((coerceValueImpl .null (.nonNull demoIntScalar) none [] =
      (.null, [newCoercionError
        ("Expected non-nullable type " ++ typeString (.nonNull demoIntScalar) ++ " not to be null")
        none [] "" none]) ∧
      (coerceValueImpl .null (.nonNull demoIntScalar) none []).2 ≠ []) ∧
    coerceValueImpl .null demoIntScalar none [] = (.null, []) ∧
    coerceValueImpl (.int 5) (.nonNull demoIntScalar) none [] =
      coerceValueImpl (.int 5) demoIntScalar none []) :=
  ⟨rfl, fun h => IValue.noConfusion h,
    coerceValue_null_handling demoIntScalar none [] (.int 5) rfl (fun h => IValue.noConfusion h)⟩

/-- C7 counterexample: for the input object `O` with field `f` of a scalar
type whose variable coercion sends everything to `42` and whose declared
default is `7`, supplying `f` with a value equal to the default (`7`) yields
`{f: 42}` (the supplied value is re-coerced) while omitting `f` yields
`{f: 7}` (the default is taken verbatim) — the two coercion results differ,
so supplying a field equal to its default is distinguishable from omitting
it. -/
theorem coerceValue_default_counterexample :
    coerceValueImpl (.obj [("f", .int 7)]) normalizingObject none [] =
      (.obj [("f", .int 42)], []) ∧
    coerceValueImpl (.obj []) normalizingObject none [] = (.obj [("f", .int 7)], []) ∧
    coerceValueImpl (.obj [("f", .int 7)]) normalizingObject none [] ≠
      coerceValueImpl (.obj []) normalizingObject none [] := by
  have hsc : ∀ p : ValuePath, coerceValueImpl (.int 7) normalizingScalar none p = (.int 42, []) := by
    intro p
    rw [show normalizingScalar = InType.scalar "Weird" (fun _ => Except.ok (IValue.int 42)) from rfl]
    rw [coerceValueImpl] <;> simp
  have hfield : coerceObjectField none [] [("f", IValue.int 7)]
      ("f", normalizingScalar, some (.int 7)) = (some ("f", IValue.int 42), []) := by
    rw [coerceObjectField]
    simp [lookupField, hsc]
  have hfield2 : coerceObjectField none [] ([] : List (String × IValue))
      ("f", normalizingScalar, some (.int 7)) = (some ("f", IValue.int 7), []) := by
    rw [coerceObjectField]
    simp [lookupField]
  have h1 : coerceValueImpl (.obj [("f", .int 7)]) normalizingObject none [] =
      (.obj [("f", .int 42)], []) := by
    rw [show normalizingObject = .inputObject "O" [("f", normalizingScalar, some (.int 7))] from rfl]
    rw [coerceValueImpl_inputObject, coerceInputObject_unfold]
    simp [hfield, unknownFieldStep, lookupFieldSpec]
  have h2 : coerceValueImpl (.obj []) normalizingObject none [] = (.obj [("f", .int 7)], []) := by
    rw [show normalizingObject = .inputObject "O" [("f", normalizingScalar, some (.int 7))] from rfl]
    rw [coerceValueImpl_inputObject, coerceInputObject_unfold]
    simp [hfield2]
  refine ⟨h1, h2, ?_⟩
  rw [h1, h2]
  simp

theorem lookupFieldSpec_isSome_of_mem (fields : List (String × InType × Option IValue))
    (fname : String) (ftype : InType) (d : Option IValue)
    (hmem : (fname, ftype, d) ∈ fields) : (lookupFieldSpec fields fname).isSome = true := by
  induction fields with
  | nil => cases hmem
  | cons hd tl ih =>
    rw [lookupFieldSpec]
    by_cases hk : hd.1 = fname
    · simp [hk]
    · cases hmem with
      | head => simp at hk
      | tail _ htl =>
        simp only [hk, if_false]
        exact ih htl

/-- C7 (amended): providing a field with a value equal to its declared
default is indistinguishable from omitting it, provided coercing that default
against the field's type returns it unchanged with no errors.  (In general
the provided copy is re-coerced while the omitted default is taken verbatim,
as the counterexample shows.) -/
theorem coerceValue_default_equiv
    (tname : String) (fields : List (String × InType × Option IValue))
    (m : List (String × IValue)) (fname : String) (ftype : InType) (d : IValue)
    (blameNode : Option ErrorLocation) (path : ValuePath)
    (hmem : (fname, ftype, some d) ∈ fields)
    (huniq : ∀ e ∈ fields, e.1 = fname → e = (fname, ftype, some d))
    (hnotin : lookupField m fname = none)
    (hco : coerceValueImpl d ftype blameNode (path ++ [PathKey.fieldName fname]) = (d, [])) :
    coerceValueImpl (.obj ((fname, d) :: m)) (.inputObject tname fields) blameNode path =
      coerceValueImpl (.obj m) (.inputObject tname fields) blameNode path := by
  rw [coerceValueImpl_inputObject, coerceValueImpl_inputObject,
    coerceInputObject_unfold, coerceInputObject_unfold]
  have key1 : fields.map (coerceObjectField blameNode path ((fname, d) :: m)) =
      fields.map (coerceObjectField blameNode path m) := by
    apply List.map_congr_left
    intro f hf
    by_cases hn : f.1 = fname
    · have hfe : f = (fname, ftype, some d) := huniq f hf hn
      subst hfe
      rw [coerceObjectField, coerceObjectField]
      simp [lookupField, hnotin, hco]
    · rw [coerceObjectField, coerceObjectField]
      have hl : lookupField ((fname, d) :: m) f.1 = lookupField m f.1 := by
        rw [lookupField]
        rw [if_neg (fun h => hn h.symm)]
      rw [hl]
  have key2 : ((fname, d) :: m).foldl (unknownFieldStep blameNode path tname fields)
        ([] : List GoError) =
      m.foldl (unknownFieldStep blameNode path tname fields) ([] : List GoError) := by
    rw [List.foldl_cons]
    congr 1
    rw [unknownFieldStep]
    simp [lookupFieldSpec_isSome_of_mem fields fname ftype (some d) hmem]
  rw [key1, key2]

theorem coerceValue_default_equiv_witness :
    (("f", demoIntScalar, some (IValue.int 7)) ∈ demoFields) ∧
    (∀ e ∈ demoFields, e.1 = "f" → e = ("f", demoIntScalar, some (IValue.int 7))) ∧
    lookupField [] "f" = none ∧
    coerceValueImpl (.int 7) demoIntScalar none (([] : ValuePath) ++ [PathKey.fieldName "f"]) =
      (.int 7, []) ∧
    coerceValueImpl (.obj (("f", IValue.int 7) :: [])) (.inputObject "O" demoFields) none [] =
      coerceValueImpl (.obj []) (.inputObject "O" demoFields) none [] := by
  have hmem : ("f", demoIntScalar, some (IValue.int 7)) ∈ demoFields := by
    rw [demoFields]
    exact List.mem_singleton.mpr rfl
  have huniq : ∀ e ∈ demoFields, e.1 = "f" → e = ("f", demoIntScalar, some (IValue.int 7)) := by
    intro e he _
    rw [demoFields] at he
    exact List.mem_singleton.mp he
  have hco : coerceValueImpl (.int 7) demoIntScalar none
      (([] : ValuePath) ++ [PathKey.fieldName "f"]) = (.int 7, []) := by
    rw [show demoIntScalar = .scalar "Int" (fun v => .ok v) from rfl]
    rw [coerceValueImpl] <;> simp
  exact ⟨hmem, huniq, rfl, hco,
    coerceValue_default_equiv "O" demoFields [] "f" demoIntScalar (.int 7) none []
      hmem huniq rfl hco⟩

/-- C3: `@skip` is evaluated before `@include`: a true skip condition omits
the selection without consulting `@include` at all; and, when both directive
evaluations succeed, the selection is included iff the skip condition is not
true and the include condition is not false (so `@skip(if: true)` and
`@include(if: false)` each omit it, and a selection with neither directive —
both values absent — is included). -/
theorem shouldIncludeNode_skip_include (vars : List (String × Bool)) (node : Selection)
    (s i : Option Bool)
    (hs : directiveValues "skip" node.getDirectives vars = .ok s)
    (hi : directiveValues "include" node.getDirectives vars = .ok i) :
    (s = some true → shouldIncludeNode vars node = .ok false) ∧
    shouldIncludeNode vars node =
      .ok (decide (s ≠ some true) && decide (i ≠ some false)) := by
  constructor
  · intro hst
    subst hst
    simp [shouldIncludeNode, hs, bind, Except.bind, pure, Except.pure]
  · by_cases h1 : s = some true <;> by_cases h2 : i = some false <;>
      simp [shouldIncludeNode, hs, hi, h1, h2, bind, Except.bind, pure, Except.pure]

theorem shouldIncludeNode_skip_include_witness :
    directiveValues "skip" demoDirectedField.getDirectives [] = .ok (some false) ∧
    directiveValues "include" demoDirectedField.getDirectives [] = .ok (some true) ∧
    ((some false = some true → shouldIncludeNode [] demoDirectedField = .ok false) ∧
      shouldIncludeNode [] demoDirectedField =
        .ok (decide ((some false : Option Bool) ≠ some true) &&
          decide ((some true : Option Bool) ≠ some false))) :=
  ⟨rfl, rfl, shouldIncludeNode_skip_include [] demoDirectedField (some false) (some true) rfl rfl⟩

theorem lookupChildren_insertChildren (children : List (SchemaType × List ExecutionNode))
    (rt : SchemaType) (cs : List ExecutionNode) :
    lookupChildren (insertChildren children rt cs) rt = some cs := by
  induction children with
  | nil => simp [insertChildren, lookupChildren]
  | cons hd tl ih =>
    rw [insertChildren]
    by_cases hk : hd.1 = rt
    · simp [hk, lookupChildren]
    · simp only [hk, if_false]
      rw [lookupChildren]
      simp [hk, ih]

theorem insertChildren_insertChildren (children : List (SchemaType × List ExecutionNode))
    (rt : SchemaType) (cs : List ExecutionNode) :
    insertChildren (insertChildren children rt cs) rt cs = insertChildren children rt cs := by
  induction children with
  | nil => simp [insertChildren]
  | cons hd tl ih =>
    rw [insertChildren]
    by_cases hk : hd.1 = rt
    · simp [hk, insertChildren]
    · simp only [hk, if_false]
      rw [insertChildren]
      simp [hk, ih]

/-- C5: field collection is memoized and idempotent: after one successful
`collectFields` call, the result list is stored in the node's children map
under the runtime type, and a second call with the same (node, runtime type)
returns exactly that stored list and leaves the node unchanged — regardless
of the fuel given to the second call, since the builder is not invoked
again. -/
theorem collectFields_memoized (env : CollectEnv) (node : ExecutionNode)
    (rt : SchemaType) (fuel fuel2 : Nat) (cs : List ExecutionNode) (node1 : ExecutionNode)
    (h : collectFields env node rt fuel = .ok (cs, node1)) :
    lookupChildren node1.children rt = some cs ∧
    collectFields env node1 rt fuel2 = .ok (cs, node1) := by
  obtain ⟨r, ds, fd, av, ch⟩ := node
  rw [collectFields] at h
  have main : ∀ cs0 : List ExecutionNode, cs = cs0 →
      node1 = ExecutionNode.storeChildren (.mk r ds fd av ch) rt cs0 →
      lookupChildren node1.children rt = some cs ∧
      collectFields env node1 rt fuel2 = .ok (cs, node1) := by
    intro cs0 hcs hnode
    subst hcs
    subst hnode
    have hlook : lookupChildren
        (ExecutionNode.storeChildren (.mk r ds fd av ch) rt cs).children rt = some cs := by
      rw [ExecutionNode.storeChildren, ExecutionNode.children]
      exact lookupChildren_insertChildren ch rt cs
    refine ⟨hlook, ?_⟩
    rw [collectFields, hlook]
    simp only [ExecutionNode.storeChildren, ExecutionNode.children]
    rw [insertChildren_insertChildren]
  revert h
  cases hc : lookupChildren (ExecutionNode.mk r ds fd av ch).children rt with
  | some cs0 =>
    intro h
    simp only [Except.ok.injEq, Prod.mk.injEq] at h
    exact main cs0 h.1.symm h.2.symm
  | none =>
    intro h
    cases hb : buildChildExecutionNodesForSelectionSet env (.mk r ds fd av ch) rt fuel with
    | error e => rw [hb] at h; cases h
    | ok cs0 =>
      rw [hb] at h
      simp only [Except.ok.injEq, Prod.mk.injEq] at h
      exact main cs0 h.1.symm h.2.symm

theorem collectFields_memoized_witness :
    collectFields demoEnv demoRootNode (.object "Query") 3 =
      .ok ([ExecutionNode.mk false [Selection.field none "a" [] []] (some ⟨"a"⟩) [] []],
        ExecutionNode.mk true [] none []
          [(.object "Query",
            [ExecutionNode.mk false [Selection.field none "a" [] []] (some ⟨"a"⟩) [] []])]) ∧
    (lookupChildren (ExecutionNode.mk true [] none []
        [(.object "Query",
          [ExecutionNode.mk false [Selection.field none "a" [] []] (some ⟨"a"⟩) [] []])]).children
        (.object "Query") =
      some [ExecutionNode.mk false [Selection.field none "a" [] []] (some ⟨"a"⟩) [] []] ∧
    collectFields demoEnv
        (ExecutionNode.mk true [] none []
          [(.object "Query",
            [ExecutionNode.mk false [Selection.field none "a" [] []] (some ⟨"a"⟩) [] []])])
        (.object "Query") 0 =
      .ok ([ExecutionNode.mk false [Selection.field none "a" [] []] (some ⟨"a"⟩) [] []],
        ExecutionNode.mk true [] none []
          [(.object "Query",
            [ExecutionNode.mk false [Selection.field none "a" [] []] (some ⟨"a"⟩) [] []])])) :=
  ⟨rfl,
    collectFields_memoized demoEnv demoRootNode (.object "Query") 3 0
      [ExecutionNode.mk false [Selection.field none "a" [] []] (some ⟨"a"⟩) [] []]
      (ExecutionNode.mk true [] none []
        [(.object "Query",
          [ExecutionNode.mk false [Selection.field none "a" [] []] (some ⟨"a"⟩) [] []])])
      rfl⟩

theorem withDefinitions_self (n : ExecutionNode) :
    n.withDefinitions n.definitions = n := by
  cases n
  rfl

theorem appendDefinition_definitions (n : ExecutionNode) (s : Selection) :
    (appendDefinition n s).definitions = n.definitions ++ [s] := by
  cases n
  rfl

theorem appendDefinition_withDefinitions (n : ExecutionNode) (s : Selection)
    (ds : List Selection) :
    (appendDefinition n s).withDefinitions ds = n.withDefinitions ds := by
  cases n
  rfl

theorem nodeResponseKey_appendDefinition (n : ExecutionNode) (s : Selection)
    (h : n.definitions ≠ []) :
    nodeResponseKey (appendDefinition n s) = nodeResponseKey n := by
  obtain ⟨r, ds, fd, av, ch⟩ := n
  cases ds with
  | nil => simp [ExecutionNode.definitions] at h
  | cons d rest => rfl

theorem mem_of_getElem?A : ∀ (l : List ExecutionNode) (i : Nat) (n : ExecutionNode),
    l[i]? = some n → n ∈ l := by
  intro l
  induction l with
  | nil => intro i n h; simp at h
  | cons x rest ih =>
    intro i n h
    cases i with
    | zero =>
      simp only [List.getElem?_cons_zero, Option.some.injEq] at h
      exact h ▸ List.mem_cons_self x rest
    | succ j =>
      simp only [List.getElem?_cons_succ] at h
      exact List.mem_cons_of_mem x (ih j n h)

theorem modifyAt_getElem_eq (f : ExecutionNode → ExecutionNode) :
    ∀ (l : List ExecutionNode) (i : Nat), (modifyAt l i f)[i]? = (l[i]?).map f := by
  intro l
  induction l with
  | nil => intro i; simp [modifyAt]
  | cons x rest ih =>
    intro i
    cases i with
    | zero => simp [modifyAt]
    | succ j => simpa [modifyAt] using ih j

theorem modifyAt_getElem_ne (f : ExecutionNode → ExecutionNode) :
    ∀ (l : List ExecutionNode) (i j : Nat), i ≠ j → (modifyAt l i f)[j]? = l[j]? := by
  intro l
  induction l with
  | nil => intro i j _; simp [modifyAt]
  | cons x rest ih =>
    intro i j hij
    cases i with
    | zero =>
      cases j with
      | zero => exact absurd rfl hij
      | succ j' => simp [modifyAt]
    | succ i' =>
      cases j with
      | zero => simp [modifyAt]
      | succ j' =>
        simp only [modifyAt, List.getElem?_cons_succ]
        exact ih i' j' (fun he => hij (by rw [he]))

theorem nodesKey_cons (k : String) (x : ExecutionNode) (l : List ExecutionNode) :
    nodesKey k (x :: l) =
      if nodeResponseKey x = k then x :: nodesKey k l else nodesKey k l := by
  simp only [nodesKey, List.filter_cons]
  by_cases h : nodeResponseKey x = k <;> simp [h]

theorem nodesKey_nil (k : String) : nodesKey k [] = [] := rfl

theorem nodesKey_append (k : String) (l l2 : List ExecutionNode) :
    nodesKey k (l ++ l2) = nodesKey k l ++ nodesKey k l2 := by
  simp [nodesKey, List.filter_append]

theorem nodesKey_modifyAt_other (f : ExecutionNode → ExecutionNode) (k' : String) :
    ∀ (l : List ExecutionNode) (i : Nat),
      (∀ n, l[i]? = some n → nodeResponseKey n ≠ k' ∧ nodeResponseKey (f n) ≠ k') →
      nodesKey k' (modifyAt l i f) = nodesKey k' l := by
  intro l
  induction l with
  | nil => intro i _; simp [modifyAt]
  | cons x rest ih =>
    intro i h
    cases i with
    | zero =>
      have hx := h x (by simp)
      simp only [modifyAt]
      rw [nodesKey_cons, nodesKey_cons, if_neg hx.1, if_neg hx.2]
    | succ j =>
      have ihr := ih j (fun n hn => h n (by simpa using hn))
      simp only [modifyAt]
      rw [nodesKey_cons, nodesKey_cons, ihr]

theorem nodesKey_modifyAt_hit (f : ExecutionNode → ExecutionNode) (k : String) :
    ∀ (l : List ExecutionNode) (i : Nat) (n : ExecutionNode),
      l[i]? = some n → nodeResponseKey n = k → nodeResponseKey (f n) = k →
      nodesKey k l = [n] → nodesKey k (modifyAt l i f) = [f n] := by
  intro l
  induction l with
  | nil => intro i n h; simp at h
  | cons x rest ih =>
    intro i n hget hkn hkf hfilter
    cases i with
    | zero =>
      have hx : x = n := by simpa using hget
      subst hx
      rw [nodesKey_cons, if_pos hkn] at hfilter
      have hrest : nodesKey k rest = [] := by
        simpa using hfilter
      simp only [modifyAt]
      rw [nodesKey_cons, if_pos hkf, hrest]
    | succ j =>
      have hget' : rest[j]? = some n := by simpa using hget
      by_cases hx : nodeResponseKey x = k
      · exfalso
        rw [nodesKey_cons, if_pos hx] at hfilter
        have hxn : x = n ∧ nodesKey k rest = [] := by
          constructor
          · exact (List.cons.injEq _ _ _ _ ▸ hfilter).1
          · exact (List.cons.injEq _ _ _ _ ▸ hfilter).2
        have hmem : n ∈ rest := mem_of_getElem?A rest j n hget'
        have : n ∈ nodesKey k rest := by
          simp [nodesKey, List.mem_filter, hmem, hkn]
        rw [hxn.2] at this
        simp at this
      · rw [nodesKey_cons, if_neg hx] at hfilter
        simp only [modifyAt]
        rw [nodesKey_cons, if_neg hx]
        exact ih j n hget' hkn hkf hfilter

theorem lookupIndex_append (fs : List (String × Nat)) (k k' : String) (v : Nat) :
    lookupIndex (fs ++ [(k, v)]) k' =
      (match lookupIndex fs k' with
       | some i => some i
       | none => if k = k' then some v else none) := by
  induction fs with
  | nil => simp [lookupIndex]
  | cons hd tl ih =>
    obtain ⟨hk, hv⟩ := hd
    rw [List.cons_append, lookupIndex, lookupIndex]
    by_cases h : hk = k'
    · simp [h]
    · simp only [h, if_false]
      exact ih

theorem getElem?_append_lt : ∀ (l l2 : List ExecutionNode) (i : Nat), i < l.length →
    (l ++ l2)[i]? = l[i]? := by
  intro l
  induction l with
  | nil => intro l2 i h; simp at h
  | cons x rest ih =>
    intro l2 i h
    cases i with
    | zero => simp
    | succ j =>
      simp only [List.cons_append, List.getElem?_cons_succ]
      exact ih l2 j (by simpa using h)

theorem getElem?_append_len : ∀ (l : List ExecutionNode) (n : ExecutionNode),
    (l ++ [n])[l.length]? = some n := by
  intro l
  induction l with
  | nil => intro n; simp
  | cons x rest ih => intro n; simpa using ih n

theorem applyTrace_nil_empty (env : CollectEnv) (rt : SchemaType) (k : String) :
    applyTrace env rt k [] [] = [] := by
  rw [applyTrace]
  simp [coalesceTrace, filterKey]

theorem applyTrace_nil_one (env : CollectEnv) (rt : SchemaType) (k : String)
    (n : ExecutionNode) : applyTrace env rt k [n] [] = [n] := by
  rw [applyTrace]
  simp [filterKey, withDefinitions_self]

theorem applyTrace_cons_ne (env : CollectEnv) (rt : SchemaType) (k' : String)
    (cur : List ExecutionNode) (s : Selection) (tr : List Selection)
    (h : selectionResponseKey s ≠ k') :
    applyTrace env rt k' cur (s :: tr) = applyTrace env rt k' cur tr := by
  have h1 : filterKey k' (s :: tr) = filterKey k' tr := by
    simp [filterKey, List.filter_cons, h]
  have h2 : coalesceTrace env rt k' (s :: tr) = coalesceTrace env rt k' tr := by
    rw [coalesceTrace, coalesceTrace, h1]
  match cur with
  | [] => rw [applyTrace, applyTrace, h2]
  | [n] => rw [applyTrace, applyTrace, h1]
  | a :: b :: cur2 => rw [applyTrace, applyTrace] <;> simp

theorem filterKey_cons_eq (k : String) (s : Selection) (tr : List Selection)
    (h : selectionResponseKey s = k) : filterKey k (s :: tr) = s :: filterKey k tr := by
  simp [filterKey, List.filter_cons, h]

theorem coalesceTrace_cons_undef (env : CollectEnv) (rt : SchemaType) (k : String)
    (s : Selection) (tr : List Selection) (hk : selectionResponseKey s = k)
    (hdef : findFieldDef env rt (selectionFieldName s) = none) :
    coalesceTrace env rt k (s :: tr) = coalesceTrace env rt k tr := by
  rw [coalesceTrace, coalesceTrace, filterKey_cons_eq k s tr hk]
  simp [List.dropWhile_cons, hdef]

theorem coalesceTrace_cons_def (env : CollectEnv) (rt : SchemaType) (k : String)
    (s : Selection) (tr : List Selection) (fd : FieldDef) (hk : selectionResponseKey s = k)
    (hdef : findFieldDef env rt (selectionFieldName s) = some fd) :
    coalesceTrace env rt k (s :: tr) = s :: filterKey k tr := by
  rw [coalesceTrace, filterKey_cons_eq k s tr hk]
  simp [List.dropWhile_cons, hdef]

theorem mkFieldNode_definitions (env : CollectEnv) (rt : SchemaType) (defs : List Selection)
    (h : defs ≠ []) : (mkFieldNode env rt defs).definitions = defs := by
  cases defs with
  | nil => simp at h
  | cons d rest =>
    rw [mkFieldNode]
    cases h2 : findFieldDef env rt (selectionFieldName d) <;> rfl

theorem StInv_init (fields : List (String × Nat)) (h : fields = []) :
    StInv fields [] := by
  subst h
  refine ⟨?_, ?_, ?_⟩
  · intro n hn; simp at hn
  · intro k idx hl; simp [lookupIndex] at hl
  · intro k _; simp [nodesKey]

theorem getElem?_some_lt : ∀ (l : List ExecutionNode) (i : Nat) (n : ExecutionNode),
    l[i]? = some n → i < l.length := by
  intro l
  induction l with
  | nil => intro i n h; simp at h
  | cons x rest ih =>
    intro i n h
    cases i with
    | zero => simp
    | succ j =>
      simp only [List.getElem?_cons_succ] at h
      simpa using ih j n h

theorem defsNonempty_modifyAt (s : Selection) :
    ∀ (l : List ExecutionNode) (i : Nat), (∀ n ∈ l, n.definitions ≠ []) →
      ∀ n ∈ modifyAt l i (fun m => appendDefinition m s), n.definitions ≠ [] := by
  intro l
  induction l with
  | nil => intro i _ n hn; simp [modifyAt] at hn
  | cons x rest ih =>
    intro i h n hn
    cases i with
    | zero =>
      simp only [modifyAt, List.mem_cons] at hn
      cases hn with
      | inl he =>
        subst he
        rw [appendDefinition_definitions]
        simp
      | inr hm => exact h n (List.mem_cons_of_mem x hm)
    | succ j =>
      simp only [modifyAt, List.mem_cons] at hn
      cases hn with
      | inl he => subst he; exact h n (List.mem_cons_self n rest)
      | inr hm =>
        exact ih j (fun m hm2 => h m (List.mem_cons_of_mem x hm2)) n hm

theorem StInv_modify (fields : List (String × Nat)) (l : List ExecutionNode)
    (k0 : String) (idx : Nat) (sel : Selection)
    (hinv : StInv fields l) (hlook : lookupIndex fields k0 = some idx) :
    StInv fields (modifyAt l idx (fun n => appendDefinition n sel)) := by
  obtain ⟨inv1, inv2, inv3⟩ := hinv
  obtain ⟨n0, hget0, hkey0, hfil0⟩ := inv2 k0 idx hlook
  have hne0 : n0.definitions ≠ [] := inv1 n0 (mem_of_getElem?A l idx n0 hget0)
  have hkeyf : nodeResponseKey (appendDefinition n0 sel) = k0 := by
    rw [nodeResponseKey_appendDefinition n0 sel hne0]
    exact hkey0
  have hside : ∀ k1, k1 ≠ k0 →
      ∀ n, l[idx]? = some n → nodeResponseKey n ≠ k1 ∧
        nodeResponseKey (appendDefinition n sel) ≠ k1 := by
    intro k1 hk1 n hn
    have hn0 : n = n0 := by
      rw [hn] at hget0
      injection hget0
    subst hn0
    constructor
    · rw [hkey0]; exact fun he => hk1 he.symm
    · rw [hkeyf]; exact fun he => hk1 he.symm
  refine ⟨defsNonempty_modifyAt sel l idx inv1, ?_, ?_⟩
  · intro k1 idx1 h1
    by_cases hk1 : k1 = k0
    · subst hk1
      have hidx : idx1 = idx := by
        rw [hlook] at h1
        injection h1 with h2
        exact h2.symm
      subst hidx
      refine ⟨appendDefinition n0 sel, ?_, hkeyf, ?_⟩
      · rw [modifyAt_getElem_eq, hget0]
        rfl
      · exact nodesKey_modifyAt_hit _ _ l _ n0 hget0 hkey0 hkeyf hfil0
    · obtain ⟨n1, hget1, hkey1, hfil1⟩ := inv2 k1 idx1 h1
      have hidxne : idx ≠ idx1 := by
        intro he
        subst he
        rw [hget1] at hget0
        injection hget0 with h2
        rw [h2] at hkey1
        exact hk1 (hkey1.symm.trans hkey0)
      refine ⟨n1, ?_, hkey1, ?_⟩
      · rw [modifyAt_getElem_ne _ l idx idx1 hidxne]
        exact hget1
      · rw [nodesKey_modifyAt_other _ k1 l idx (hside k1 hk1)]
        exact hfil1
  · intro k1 h1
    have hk1 : k1 ≠ k0 := by
      intro he
      rw [he, hlook] at h1
      cases h1
    rw [nodesKey_modifyAt_other _ k1 l idx (hside k1 hk1)]
    exact inv3 k1 h1

theorem StInv_push (fields : List (String × Nat)) (l : List ExecutionNode)
    (k0 : String) (sel : Selection) (fd : FieldDef) (args : List (String × IValue))
    (hinv : StInv fields l) (hlook : lookupIndex fields k0 = none)
    (hks : selectionResponseKey sel = k0) :
    StInv (fields ++ [(k0, l.length)])
      (l ++ [ExecutionNode.mk false [sel] (some fd) args []]) := by
  obtain ⟨inv1, inv2, inv3⟩ := hinv
  have hkeynode : nodeResponseKey (ExecutionNode.mk false [sel] (some fd) args []) = k0 := by
    simp [nodeResponseKey, ExecutionNode.definitions, hks]
  refine ⟨?_, ?_, ?_⟩
  · intro n hn
    rcases List.mem_append.mp hn with hm | hm
    · exact inv1 n hm
    · have he : n = ExecutionNode.mk false [sel] (some fd) args [] := by simpa using hm
      subst he
      simp [ExecutionNode.definitions]
  · intro k1 idx1 h1
    rw [lookupIndex_append] at h1
    cases hold : lookupIndex fields k1 with
    | some i =>
      rw [hold] at h1
      have hi : idx1 = i := by injection h1 with h2; exact h2.symm
      subst hi
      obtain ⟨n1, hget1, hkey1, hfil1⟩ := inv2 k1 idx1 hold
      have hk1 : k1 ≠ k0 := by
        intro he
        rw [he, hlook] at hold
        cases hold
      refine ⟨n1, ?_, hkey1, ?_⟩
      · rw [getElem?_append_lt l _ idx1 (getElem?_some_lt l idx1 n1 hget1)]
        exact hget1
      · rw [nodesKey_append, hfil1, nodesKey_cons,
          if_neg (show ¬ nodeResponseKey (ExecutionNode.mk false [sel] (some fd) args [])
            = k1 from fun he => hk1 (hkeynode.symm.trans he).symm)]
        simp [nodesKey]
    | none =>
      rw [hold] at h1
      by_cases hk : k0 = k1
      · rw [if_pos hk] at h1
        have hi : idx1 = l.length := by injection h1 with h2; exact h2.symm
        subst hi
        subst hk
        refine ⟨ExecutionNode.mk false [sel] (some fd) args [], ?_, hkeynode, ?_⟩
        · exact getElem?_append_len l _
        · rw [nodesKey_append, inv3 k0 hold, nodesKey_cons, if_pos hkeynode]
          simp [nodesKey]
      · rw [if_neg hk] at h1
        cases h1
  · intro k1 h1
    rw [lookupIndex_append] at h1
    cases hold : lookupIndex fields k1 with
    | some i => rw [hold] at h1; cases h1
    | none =>
      rw [hold] at h1
      by_cases hk : k0 = k1
      · rw [if_pos hk] at h1; cases h1
      · rw [nodesKey_append, inv3 k1 hold, nodesKey_cons,
          if_neg (show ¬ nodeResponseKey (ExecutionNode.mk false [sel] (some fd) args [])
            = k1 from fun he => hk (hkeynode.symm.trans he))]
        simp [nodesKey]

/-- The central simulation: a successful run of the collection machine and
the trace machine from the same fuel, stack and visited set transforms the
per-key node view by `applyTrace` and preserves the machine invariant. -/
theorem buildLoop_trace_characterization (env : CollectEnv) (rt : SchemaType) :
    ∀ (fuel : Nat) (stack : List TaskData) (st st1 : CollectState) (tr : List Selection),
      buildLoop env rt fuel stack st = .ok st1 →
      traceLoop env rt fuel stack st.visitedFragmentNames = .ok tr →
      StInv st.fields st.childNodes →
      StInv st1.fields st1.childNodes ∧
      ∀ k, nodesKey k st1.childNodes = applyTrace env rt k (nodesKey k st.childNodes) tr := by
  intro fuel
  induction fuel with
  | zero =>
    intro stack st st1 tr hb
    rw [buildLoop] at hb
    simp at hb
  | succ fuel ih =>
    intro stack st st1 tr hb ht hinv
    cases stack with
    | nil =>
      rw [buildLoop] at hb
      rw [traceLoop] at ht
      injection hb with hb1
      injection ht with ht1
      subst hb1
      subst ht1
      refine ⟨hinv, ?_⟩
      intro k
      obtain ⟨inv1, inv2, inv3⟩ := hinv
      cases hl : lookupIndex st.fields k with
      | some idx =>
        obtain ⟨n, _, _, hfil⟩ := inv2 k idx hl
        rw [hfil, applyTrace_nil_one]
      | none =>
        rw [inv3 k hl, applyTrace_nil_empty]
    | cons data stackRest =>
      rw [buildLoop] at hb
      rw [traceLoop] at ht
      by_cases hlt : data.selectionIndex < data.selectionSet.length
      · rw [dif_pos hlt] at hb ht
        cases hinc : shouldIncludeNode env.variableValues
            (data.selectionSet.get ⟨data.selectionIndex, hlt⟩) with
        | error e =>
          rw [hinc] at hb
          simp at hb
        | ok b =>
          rw [hinc] at hb ht
          cases b with
          | false =>
            simp only [] at hb ht
            exact ih (nextStack data stackRest) st st1 tr hb ht hinv
          | true =>
            cases hsel : data.selectionSet.get ⟨data.selectionIndex, hlt⟩ with
            | field fieldAlias name dirs ss =>
              rw [hsel] at hb ht
              simp only [] at hb ht
              cases htr : traceLoop env rt fuel (nextStack data stackRest)
                  st.visitedFragmentNames with
              | error e =>
                rw [htr] at ht
                simp at ht
              | ok rest =>
                rw [htr] at ht
                simp only [] at ht
                injection ht with ht1
                subst ht1
                have hksel : selectionResponseKey (.field fieldAlias name dirs ss)
                    = fieldResponseKey fieldAlias name := rfl
                cases hlook : lookupIndex st.fields (fieldResponseKey fieldAlias name) with
                | some idx =>
                  rw [hlook] at hb
                  simp only [] at hb
                  obtain ⟨inv1, inv2, inv3⟩ := hinv
                  obtain ⟨n0, hget0, hkey0, hfil0⟩ :=
                    inv2 (fieldResponseKey fieldAlias name) idx hlook
                  have hne0 : n0.definitions ≠ [] :=
                    inv1 n0 (mem_of_getElem?A st.childNodes idx n0 hget0)
                  have hkeyf : nodeResponseKey
                      (appendDefinition n0 (.field fieldAlias name dirs ss))
                      = fieldResponseKey fieldAlias name := by
                    rw [nodeResponseKey_appendDefinition n0 _ hne0]
                    exact hkey0
                  obtain ⟨hinv1, hchar⟩ := ih (nextStack data stackRest)
                    { st with childNodes :=
                        (modifyAt st.childNodes idx
                          (fun n => appendDefinition n (.field fieldAlias name dirs ss))) }
                    st1 rest hb htr
                    (StInv_modify st.fields st.childNodes _ idx _ ⟨inv1, inv2, inv3⟩ hlook)
                  refine ⟨hinv1, ?_⟩
                  intro k
                  have hchark := hchar k
                  simp only [] at hchark
                  by_cases hk : k = fieldResponseKey fieldAlias name
                  · subst hk
                    rw [nodesKey_modifyAt_hit _ _ st.childNodes idx n0 hget0 hkey0 hkeyf hfil0]
                      at hchark
                    rw [hchark, hfil0]
                    rw [applyTrace, applyTrace]
                    rw [appendDefinition_withDefinitions, appendDefinition_definitions]
                    rw [filterKey_cons_eq _ _ rest hksel]
                    simp
                  · have hside : ∀ n, st.childNodes[idx]? = some n →
                        nodeResponseKey n ≠ k ∧
                        nodeResponseKey (appendDefinition n (.field fieldAlias name dirs ss))
                          ≠ k := by
                      intro n hn
                      have hn0 : n = n0 := by
                        rw [hn] at hget0
                        injection hget0
                      subst hn0
                      constructor
                      · rw [hkey0]; exact fun he => hk he.symm
                      · rw [hkeyf]; exact fun he => hk he.symm
                    rw [nodesKey_modifyAt_other _ k st.childNodes idx hside] at hchark
                    rw [hchark]
                    rw [applyTrace_cons_ne env rt k _ _ rest
                      (show selectionResponseKey (.field fieldAlias name dirs ss) ≠ k from
                        fun he => hk (hksel ▸ he).symm)]
                | none =>
                  rw [hlook] at hb
                  simp only [] at hb
                  cases hfd : findFieldDef env rt name with
                  | none =>
                    rw [hfd] at hb
                    simp only [] at hb
                    obtain ⟨hinv1, hchar⟩ :=
                      ih (nextStack data stackRest) st st1 rest hb htr hinv
                    refine ⟨hinv1, ?_⟩
                    intro k
                    have hchark := hchar k
                    by_cases hk : k = fieldResponseKey fieldAlias name
                    · subst hk
                      obtain ⟨inv1, inv2, inv3⟩ := hinv
                      rw [inv3 _ hlook] at hchark ⊢
                      rw [hchark]
                      rw [applyTrace, applyTrace]
                      rw [coalesceTrace_cons_undef env rt _ _ rest hksel
                        (show findFieldDef env rt
                          (selectionFieldName (.field fieldAlias name dirs ss)) = none from hfd)]
                    · rw [hchark]
                      rw [applyTrace_cons_ne env rt k _ _ rest
                        (show selectionResponseKey (.field fieldAlias name dirs ss) ≠ k from
                          fun he => hk (hksel ▸ he).symm)]
                  | some fieldDef =>
                    rw [hfd] at hb
                    simp only [] at hb
                    cases hargs : env.argumentValues fieldDef (.field fieldAlias name dirs ss)
                        with
                    | error e =>
                      rw [hargs] at hb
                      simp at hb
                    | ok arguments =>
                      rw [hargs] at hb
                      simp only [] at hb
                      obtain ⟨inv1, inv2, inv3⟩ := hinv
                      obtain ⟨hinv1, hchar⟩ := ih (nextStack data stackRest)
                        { st with
                          childNodes := st.childNodes ++
                            [.mk false [.field fieldAlias name dirs ss] (some fieldDef)
                              arguments []]
                          fields := st.fields ++
                            [(fieldResponseKey fieldAlias name, st.childNodes.length)] }
                        st1 rest hb htr
                        (StInv_push st.fields st.childNodes _ _ fieldDef arguments
                          ⟨inv1, inv2, inv3⟩ hlook hksel)
                      refine ⟨hinv1, ?_⟩
                      intro k
                      have hchark := hchar k
                      simp only [] at hchark
                      have hkeynode : nodeResponseKey
                          (ExecutionNode.mk false [.field fieldAlias name dirs ss]
                            (some fieldDef) arguments [])
                          = fieldResponseKey fieldAlias name := rfl
                      by_cases hk : k = fieldResponseKey fieldAlias name
                      · subst hk
                        rw [nodesKey_append, inv3 _ hlook, nodesKey_cons,
                          if_pos hkeynode, nodesKey_nil, List.nil_append] at hchark
                        rw [hchark, inv3 _ hlook]
                        rw [applyTrace, applyTrace]
                        rw [coalesceTrace_cons_def env rt _ _ rest fieldDef hksel
                          (show findFieldDef env rt
                            (selectionFieldName (.field fieldAlias name dirs ss))
                            = some fieldDef from hfd)]
                        rw [ExecutionNode.withDefinitions, ExecutionNode.definitions]
                        simp only []
                        rw [mkFieldNode.eq_def]
                        simp only []
                        rw [show findFieldDef env rt
                            (selectionFieldName (.field fieldAlias name dirs ss))
                            = some fieldDef from hfd]
                        simp only []
                        rw [hargs]
                        simp
                      · rw [nodesKey_append, nodesKey_cons,
                          if_neg (show ¬ nodeResponseKey
                            (ExecutionNode.mk false [.field fieldAlias name dirs ss]
                              (some fieldDef) arguments []) = k from
                            fun he => hk (hkeynode.symm.trans he).symm),
                          nodesKey_nil, List.append_nil] at hchark
                        rw [hchark]
                        rw [applyTrace_cons_ne env rt k _ _ rest
                          (show selectionResponseKey (.field fieldAlias name dirs ss) ≠ k from
                            fun he => hk (hksel ▸ he).symm)]
            | inlineFragment typeCondition idirs iss =>
              rw [hsel] at hb ht
              simp only [] at hb ht
              cases typeCondition with
              | some cond =>
                simp only [] at hb ht
                by_cases hsat : doesTypeConditionSatisfy env cond rt = true
                · rw [if_pos hsat] at hb ht
                  exact ih (⟨iss, 0⟩ :: nextStack data stackRest) st st1 tr hb ht hinv
                · rw [if_neg hsat] at hb ht
                  exact ih (nextStack data stackRest) st st1 tr hb ht hinv
              | none =>
                exact ih (⟨iss, 0⟩ :: nextStack data stackRest) st st1 tr hb ht hinv
            | fragmentSpread fragmentName sdirs =>
              rw [hsel] at hb ht
              simp only [] at hb ht
              by_cases hvis : st.visitedFragmentNames.contains fragmentName = true
              · rw [if_pos hvis] at hb ht
                exact ih (nextStack data stackRest) st st1 tr hb ht hinv
              · rw [if_neg hvis] at hb ht
                cases hfrag : lookupFragment env.fragmentDefs fragmentName with
                | none =>
                  rw [hfrag] at hb ht
                  simp only [] at hb ht
                  exact ih (nextStack data stackRest)
                    { st with visitedFragmentNames :=
                        st.visitedFragmentNames ++ [fragmentName] }
                    st1 tr hb ht hinv
                | some fragmentDef =>
                  rw [hfrag] at hb ht
                  simp only [] at hb ht
                  by_cases hsat : doesTypeConditionSatisfy env fragmentDef.typeCondition rt
                      = true
                  · rw [if_pos hsat] at hb ht
                    exact ih (⟨fragmentDef.selectionSet, 0⟩ :: nextStack data stackRest)
                      { st with visitedFragmentNames :=
                          st.visitedFragmentNames ++ [fragmentName] }
                      st1 tr hb ht hinv
                  · rw [if_neg hsat] at hb ht
                    exact ih (nextStack data stackRest)
                      { st with visitedFragmentNames :=
                          st.visitedFragmentNames ++ [fragmentName] }
                      st1 tr hb ht hinv
      · rw [dif_neg hlt] at hb ht
        exact ih (data :: stackRest) st st1 tr hb ht hinv

/-- C4: coalescing of duplicate response keys in one selection set under one
runtime type.  For a successful run of
`buildChildExecutionNodesForSelectionSet`, with `tr` the DFS linearization of
the included field selections of the same selection set (the textual order),
every response key `k` yields at most one node in the output: none when the
key's coalesced selections are empty, and exactly one node — built from them
— otherwise.  Consequently every output node is the unique node carrying its
response key, and its `definitions` list is exactly the key's field
selections in textual order (after the silently dropped undefined-field
prefix).  In particular two field selections sharing a response key coalesce
into one node appearing once and carrying both definitions in order. -/
theorem buildChild_coalescing (env : CollectEnv) (parentNode : ExecutionNode)
    (rt : SchemaType) (fuel : Nat) (out : List ExecutionNode) (tr : List Selection)
    (hb : buildChildExecutionNodesForSelectionSet env parentNode rt fuel = .ok out)
    (ht : traceLoop env rt fuel (initialCollectStack env parentNode) [] = .ok tr) :
    (∀ k, nodesKey k out =
      match coalesceTrace env rt k tr with
      | [] => []
      | l => [mkFieldNode env rt l]) ∧
    ∀ n ∈ out, nodesKey (nodeResponseKey n) out = [n] ∧
      n.definitions = coalesceTrace env rt (nodeResponseKey n) tr := by
  rw [buildChildExecutionNodesForSelectionSet] at hb
  cases hrun : buildLoop env rt fuel (initialCollectStack env parentNode) ⟨[], [], []⟩ with
  | error e =>
    rw [hrun] at hb
    cases hb
  | ok st1 =>
    rw [hrun] at hb
    injection hb with hb1
    subst hb1
    obtain ⟨_, hchar⟩ := buildLoop_trace_characterization env rt fuel
      (initialCollectStack env parentNode) ⟨[], [], []⟩ st1 tr hrun ht (StInv_init [] rfl)
    have hcharK : ∀ k, nodesKey k st1.childNodes =
        match coalesceTrace env rt k tr with
        | [] => []
        | l => [mkFieldNode env rt l] := by
      intro k
      have h := hchar k
      simp only [] at h
      rw [nodesKey_nil, applyTrace] at h
      exact h
    refine ⟨hcharK, ?_⟩
    intro n hn
    have hmem : n ∈ nodesKey (nodeResponseKey n) st1.childNodes :=
      List.mem_filter.mpr ⟨hn, by simp⟩
    have h := hcharK (nodeResponseKey n)
    cases hc : coalesceTrace env rt (nodeResponseKey n) tr with
    | nil =>
      rw [hc] at h
      rw [h] at hmem
      simp at hmem
    | cons d rest =>
      rw [hc] at h
      simp only [] at h
      rw [h] at hmem
      have hn2 : n = mkFieldNode env rt (d :: rest) := by
        simpa using hmem
      subst hn2
      refine ⟨h, ?_⟩
      rw [mkFieldNode_definitions env rt (d :: rest) (by simp)]

theorem buildChild_coalescing_witness :
    buildChildExecutionNodesForSelectionSet demoDupEnv demoRootNode (.object "Query") 4 =
      .ok [ExecutionNode.mk false
        [Selection.field none "a" [] [], Selection.field none "a" [] []] (some ⟨"a"⟩) [] []] ∧
    traceLoop demoDupEnv (.object "Query") 4 (initialCollectStack demoDupEnv demoRootNode) [] =
      .ok [Selection.field none "a" [] [], Selection.field none "a" [] []] ∧
    (nodesKey "a" [ExecutionNode.mk false
        [Selection.field none "a" [] [], Selection.field none "a" [] []] (some ⟨"a"⟩) [] []] =
      [ExecutionNode.mk false
        [Selection.field none "a" [] [], Selection.field none "a" [] []] (some ⟨"a"⟩) [] []] ∧
    (ExecutionNode.mk false
        [Selection.field none "a" [] [], Selection.field none "a" [] []]
        (some ⟨"a"⟩) [] []).definitions =
      coalesceTrace demoDupEnv (.object "Query") "a"
        [Selection.field none "a" [] [], Selection.field none "a" [] []]) :=
  ⟨rfl, rfl,
    (buildChild_coalescing demoDupEnv demoRootNode (.object "Query") 4
        [ExecutionNode.mk false
          [Selection.field none "a" [] [], Selection.field none "a" [] []] (some ⟨"a"⟩) [] []]
        [Selection.field none "a" [] [], Selection.field none "a" [] []] rfl rfl).2
      (ExecutionNode.mk false
        [Selection.field none "a" [] [], Selection.field none "a" [] []] (some ⟨"a"⟩) [] [])
      (by simp)⟩

theorem modifyAtR_length (f : ResultNode → ResultNode) :
    ∀ (l : List ResultNode) (i : Nat), (modifyAtR l i f).length = l.length := by
  intro l
  induction l with
  | nil => intro i; simp [modifyAtR]
  | cons x rest ih =>
    intro i
    cases i with
    | zero => simp [modifyAtR]
    | succ j => simpa [modifyAtR] using ih j

theorem modifyAtR_getElem_eq (f : ResultNode → ResultNode) :
    ∀ (l : List ResultNode) (i : Nat), (modifyAtR l i f)[i]? = (l[i]?).map f := by
  intro l
  induction l with
  | nil => intro i; simp [modifyAtR]
  | cons x rest ih =>
    intro i
    cases i with
    | zero => simp [modifyAtR]
    | succ j => simpa [modifyAtR] using ih j

theorem modifyAtR_getElem_ne (f : ResultNode → ResultNode) :
    ∀ (l : List ResultNode) (i j : Nat), i ≠ j → (modifyAtR l i f)[j]? = l[j]? := by
  intro l
  induction l with
  | nil => intro i j _; simp [modifyAtR]
  | cons x rest ih =>
    intro i j hij
    cases i with
    | zero =>
      cases j with
      | zero => exact absurd rfl hij
      | succ j' => simp [modifyAtR]
    | succ i' =>
      cases j with
      | zero => simp [modifyAtR]
      | succ j' =>
        simp only [modifyAtR, List.getElem?_cons_succ]
        exact ih i' j' (fun he => hij (by rw [he]))

theorem setKindValue_parent (k : ResultKind) (v : RValue) (n : ResultNode) :
    (setKindValue k v n).parent = n.parent := rfl

theorem setNilR_length (heap : List ResultNode) (addr : Nat) :
    (setNilR heap addr).length = heap.length :=
  modifyAtR_length _ heap addr

theorem setNilR_getElem_ne (heap : List ResultNode) (addr b : Nat) (h : addr ≠ b) :
    (setNilR heap addr)[b]? = heap[b]? :=
  modifyAtR_getElem_ne _ heap addr b h

theorem setNilR_getElem_eq (heap : List ResultNode) (addr : Nat) (n : ResultNode)
    (h : heap[addr]? = some n) :
    (setNilR heap addr)[addr]? = some (setKindValue .Nil .none n) := by
  rw [setNilR, modifyAtR_getElem_eq, h]
  rfl

theorem parentDecreasing_modifyAtR (heap : List ResultNode) (i : Nat)
    (f : ResultNode → ResultNode) (hf : ∀ n, (f n).parent = n.parent)
    (hdec : parentDecreasing heap) : parentDecreasing (modifyAtR heap i f) := by
  intro addr n p h hp
  by_cases hi : i = addr
  · subst hi
    rw [modifyAtR_getElem_eq] at h
    cases h0 : heap[i]? with
    | none => rw [h0] at h; cases h
    | some m =>
      rw [h0] at h
      injection h with h
      rw [← h, hf] at hp
      exact hdec i m p h0 hp
  · rw [modifyAtR_getElem_ne _ _ _ _ hi] at h
    exact hdec addr n p h hp

theorem parentDecreasing_setNilR (heap : List ResultNode) (i : Nat)
    (hdec : parentDecreasing heap) : parentDecreasing (setNilR heap i) :=
  parentDecreasing_modifyAtR heap i _ (fun _ => rfl) hdec

theorem bubbleNil_preserves_above :
    ∀ (fuel : Nat) (heap : List ResultNode) (addr a : Nat), parentDecreasing heap →
      addr ≤ a → (bubbleNil heap addr fuel)[a]? = heap[a]? := by
  intro fuel
  induction fuel with
  | zero => intro heap addr a _ _; rw [bubbleNil]
  | succ fuel ih =>
    intro heap addr a hdec hle
    rw [bubbleNil]
    cases hn : heap[addr]? with
    | none => rfl
    | some n =>
      simp only []
      by_cases hnn : n.isNonNull = true
      · rw [if_pos hnn]
        cases hp : n.parent with
        | none => rfl
        | some p =>
          have hpa : p < addr := hdec addr n p hn hp
          rw [ih (setNilR heap p) p a (parentDecreasing_setNilR heap p hdec)
            (le_of_lt (lt_of_lt_of_le hpa hle))]
          exact setNilR_getElem_ne heap p a (Nat.ne_of_lt (lt_of_lt_of_le hpa hle))
      · rw [if_neg hnn]

theorem getElem?R_some_lt : ∀ (l : List ResultNode) (i : Nat) (n : ResultNode),
    l[i]? = some n → i < l.length := by
  intro l
  induction l with
  | nil => intro i n h; simp at h
  | cons x rest ih =>
    intro i n h
    cases i with
    | zero => simp
    | succ j =>
      simp only [List.getElem?_cons_succ] at h
      simpa using ih j n h

theorem bubbleNil_establishes :
    ∀ (fuel : Nat) (heap : List ResultNode) (addr : Nat) (n : ResultNode),
      parentDecreasing heap → heap[addr]? = some n → n.kind = .Nil → addr < fuel →
      NilBubbled (bubbleNil heap addr fuel) addr := by
  intro fuel
  induction fuel with
  | zero => intro heap addr n _ _ _ hlt; exact absurd hlt (Nat.not_lt_zero addr)
  | succ fuel ih =>
    intro heap addr n hdec hn hk hlt
    rw [bubbleNil, hn]
    simp only []
    by_cases hnn : n.isNonNull = true
    · rw [if_pos hnn]
      cases hp : n.parent with
      | none => exact NilBubbled.root addr n hn hk hp
      | some p =>
        have hpa : p < addr := hdec addr n p hn hp
        have hplen : p < heap.length := lt_trans hpa (getElem?R_some_lt heap addr n hn)
        have hpsome : heap[p]? = some heap[p] := List.getElem?_eq_getElem hplen
        have hrec : NilBubbled (bubbleNil (setNilR heap p) p fuel) p :=
          ih (setNilR heap p) p (setKindValue .Nil .none heap[p])
            (parentDecreasing_setNilR heap p hdec)
            (setNilR_getElem_eq heap p heap[p] hpsome) rfl
            (lt_of_lt_of_le hpa (Nat.lt_succ_iff.mp hlt))
        refine NilBubbled.bubble addr p n ?_ hk hp hrec
        rw [bubbleNil_preserves_above fuel (setNilR heap p) p addr
          (parentDecreasing_setNilR heap p hdec) (le_of_lt hpa)]
        rw [setNilR_getElem_ne heap p addr (Nat.ne_of_lt hpa)]
        exact hn
    · rw [if_neg hnn]
      exact NilBubbled.absorb addr n hn hk (Bool.not_eq_true _ ▸ hnn)

theorem handleNodeError_heap (ctx : TaskCtx) (err : GoError) (addr : Nat)
    (st : ExecState) : (handleNodeError ctx err addr st).heap =
      bubbleNil (setNilR st.heap addr) addr (setNilR st.heap addr).length := rfl

theorem handleNodeError_preserves_above (ctx : TaskCtx) (err : GoError) (addr : Nat)
    (st : ExecState) (b : Nat) (hdec : parentDecreasing st.heap) (hab : addr < b) :
    (handleNodeError ctx err addr st).heap[b]? = st.heap[b]? := by
  rw [handleNodeError_heap]
  rw [bubbleNil_preserves_above _ _ _ _ (parentDecreasing_setNilR st.heap addr hdec)
    (le_of_lt hab)]
  exact setNilR_getElem_ne st.heap addr b (Nat.ne_of_lt hab)

theorem getElem?R_append_lt : ∀ (l l2 : List ResultNode) (i : Nat), i < l.length →
    (l ++ l2)[i]? = l[i]? := by
  intro l
  induction l with
  | nil => intro l2 i h; simp at h
  | cons x rest ih =>
    intro l2 i h
    cases i with
    | zero => simp
    | succ j =>
      simp only [List.cons_append, List.getElem?_cons_succ]
      exact ih l2 j (by simpa using h)

theorem dispatchTasksForObject_preserves_above (a : Nat) (flags : List Bool)
    (st : ExecState) (b : Nat) (hab : a ≠ b) (hblen : b < st.heap.length) :
    (dispatchTasksForObject a flags st).heap[b]? = st.heap[b]? := by
  rw [show (dispatchTasksForObject a flags st).heap =
    (modifyAtR st.heap a (setKindValue .Object
      (.objectVal ((List.range flags.length).map (fun i => st.heap.length + i))))) ++
    flags.map (fun f => newResultNode (some a) f) from rfl]
  rw [getElem?R_append_lt _ _ b (by rw [modifyAtR_length]; exact hblen)]
  exact modifyAtR_getElem_ne _ _ _ _ hab

theorem completeLeafValue_preserves_above (ctx : TaskCtx) (tn : String)
    (co : RawValue → Except GoError RawValue) (a : Nat) (v : RawValue)
    (st st1 : ExecState) (ok1 : Bool) (b : Nat) (hdec : parentDecreasing st.heap)
    (h : completeLeafValue ctx tn co a v st = (ok1, st1)) (hab : a < b) :
    st1.heap[b]? = st.heap[b]? := by
  rw [completeLeafValue] at h
  cases hc : co v with
  | error err =>
    rw [hc] at h
    simp only [] at h
    by_cases hk : err.isCore = true ∧ err.errKind = .Coercion
    · rw [if_pos hk] at h
      injection h with h1 h2
      rw [← h2]
      exact handleNodeError_preserves_above ctx err a st b hdec hab
    · rw [if_neg hk] at h
      injection h with h1 h2
      rw [← h2]
      exact handleNodeError_preserves_above ctx _ a st b hdec hab
  | ok cv =>
    rw [hc] at h
    simp only [] at h
    injection h with h1 h2
    rw [← h2]
    exact modifyAtR_getElem_ne _ _ _ _ (Nat.ne_of_lt hab)

theorem completeObjectValue_preserves_above (ctx : TaskCtx) (tn : String) (a : Nat)
    (st st1 : ExecState) (ok1 : Bool) (b : Nat) (hdec : parentDecreasing st.heap)
    (h : completeObjectValue ctx tn a st = (ok1, st1)) (hab : a < b)
    (hblen : b < st.heap.length) :
    st1.heap[b]? = st.heap[b]? := by
  rw [completeObjectValue] at h
  cases hc : ctx.collectChildFlags tn with
  | error err =>
    rw [hc] at h
    simp only [] at h
    injection h with h1 h2
    rw [← h2]
    exact handleNodeError_preserves_above ctx err a st b hdec hab
  | ok flags =>
    rw [hc] at h
    simp only [] at h
    injection h with h1 h2
    rw [← h2]
    exact dispatchTasksForObject_preserves_above a flags st b (Nat.ne_of_lt hab) hblen

theorem completeNonWrappingValue_preserves_above (ctx : TaskCtx) (t : OutType)
    (a : Nat) (v : RawValue) (st st1 : ExecState) (ok1 : Bool) (b : Nat)
    (hdec : parentDecreasing st.heap)
    (h : completeNonWrappingValue ctx t a v st = .ok (ok1, st1)) (hab : a < b)
    (hblen : b < st.heap.length) :
    st1.heap[b]? = st.heap[b]? := by
  cases v with
  | null =>
    have h2 : ((true, { st with heap := (modifyAtR st.heap a
        (setKindValue .Nil .none)) }) : Bool × ExecState) = (ok1, st1) := by
      injection h with h9
    injection h2 with h3 h4
    rw [← h4]
    exact modifyAtR_getElem_ne _ _ _ _ (Nat.ne_of_lt hab)
  | gqlError e =>
    have h2 : ((false, handleNodeError ctx e a st) : Bool × ExecState) = (ok1, st1) := by
      injection h with h9
    injection h2 with h3 h4
    rw [← h4]
    exact handleNodeError_preserves_above ctx e a st b hdec hab
  | int nv =>
    cases t with
    | leaf tn co =>
      exact completeLeafValue_preserves_above ctx tn co a _ st st1 ok1 b hdec
        (by injection h with h9) hab
    | object tn =>
      exact completeObjectValue_preserves_above ctx tn a st st1 ok1 b hdec
        (by injection h with h9) hab hblen
    | abstract tn =>
      exact Except.noConfusion
        (show Except.error "unimplemented" = Except.ok (ok1, st1) from h)
    | list et =>
      have h2 : ((false, handleNodeError ctx
          (NewError ("Cannot complete value of unexpected type \"" ++
            outTypeString (.list et) ++ "\".") []) a st) : Bool × ExecState)
          = (ok1, st1) := by injection h with h9
      injection h2 with h3 h4
      rw [← h4]
      exact handleNodeError_preserves_above ctx _ a st b hdec hab
    | nonNull it =>
      have h2 : ((false, handleNodeError ctx
          (NewError ("Cannot complete value of unexpected type \"" ++
            outTypeString (.nonNull it) ++ "\".") []) a st) : Bool × ExecState)
          = (ok1, st1) := by injection h with h9
      injection h2 with h3 h4
      rw [← h4]
      exact handleNodeError_preserves_above ctx _ a st b hdec hab
  | str sv =>
    cases t with
    | leaf tn co =>
      exact completeLeafValue_preserves_above ctx tn co a _ st st1 ok1 b hdec
        (by injection h with h9) hab
    | object tn =>
      exact completeObjectValue_preserves_above ctx tn a st st1 ok1 b hdec
        (by injection h with h9) hab hblen
    | abstract tn =>
      exact Except.noConfusion
        (show Except.error "unimplemented" = Except.ok (ok1, st1) from h)
    | list et =>
      have h2 : ((false, handleNodeError ctx
          (NewError ("Cannot complete value of unexpected type \"" ++
            outTypeString (.list et) ++ "\".") []) a st) : Bool × ExecState)
          = (ok1, st1) := by injection h with h9
      injection h2 with h3 h4
      rw [← h4]
      exact handleNodeError_preserves_above ctx _ a st b hdec hab
    | nonNull it =>
      have h2 : ((false, handleNodeError ctx
          (NewError ("Cannot complete value of unexpected type \"" ++
            outTypeString (.nonNull it) ++ "\".") []) a st) : Bool × ExecState)
          = (ok1, st1) := by injection h with h9
      injection h2 with h3 h4
      rw [← h4]
      exact handleNodeError_preserves_above ctx _ a st b hdec hab
  | boolean bv =>
    cases t with
    | leaf tn co =>
      exact completeLeafValue_preserves_above ctx tn co a _ st st1 ok1 b hdec
        (by injection h with h9) hab
    | object tn =>
      exact completeObjectValue_preserves_above ctx tn a st st1 ok1 b hdec
        (by injection h with h9) hab hblen
    | abstract tn =>
      exact Except.noConfusion
        (show Except.error "unimplemented" = Except.ok (ok1, st1) from h)
    | list et =>
      have h2 : ((false, handleNodeError ctx
          (NewError ("Cannot complete value of unexpected type \"" ++
            outTypeString (.list et) ++ "\".") []) a st) : Bool × ExecState)
          = (ok1, st1) := by injection h with h9
      injection h2 with h3 h4
      rw [← h4]
      exact handleNodeError_preserves_above ctx _ a st b hdec hab
    | nonNull it =>
      have h2 : ((false, handleNodeError ctx
          (NewError ("Cannot complete value of unexpected type \"" ++
            outTypeString (.nonNull it) ++ "\".") []) a st) : Bool × ExecState)
          = (ok1, st1) := by injection h with h9
      injection h2 with h3 h4
      rw [← h4]
      exact handleNodeError_preserves_above ctx _ a st b hdec hab
  | list vs =>
    cases t with
    | leaf tn co =>
      exact completeLeafValue_preserves_above ctx tn co a _ st st1 ok1 b hdec
        (by injection h with h9) hab
    | object tn =>
      exact completeObjectValue_preserves_above ctx tn a st st1 ok1 b hdec
        (by injection h with h9) hab hblen
    | abstract tn =>
      exact Except.noConfusion
        (show Except.error "unimplemented" = Except.ok (ok1, st1) from h)
    | list et =>
      have h2 : ((false, handleNodeError ctx
          (NewError ("Cannot complete value of unexpected type \"" ++
            outTypeString (.list et) ++ "\".") []) a st) : Bool × ExecState)
          = (ok1, st1) := by injection h with h9
      injection h2 with h3 h4
      rw [← h4]
      exact handleNodeError_preserves_above ctx _ a st b hdec hab
    | nonNull it =>
      have h2 : ((false, handleNodeError ctx
          (NewError ("Cannot complete value of unexpected type \"" ++
            outTypeString (.nonNull it) ++ "\".") []) a st) : Bool × ExecState)
          = (ok1, st1) := by injection h with h9
      injection h2 with h3 h4
      rw [← h4]
      exact handleNodeError_preserves_above ctx _ a st b hdec hab

theorem parentDecreasing_demoHeap : parentDecreasing demoHeap := by
  intro addr n p h hp
  rcases addr with _ | _ | _ | addr
  · rw [show demoHeap[0]? = some ⟨.List, .listVal [1, 2], none, false⟩ from rfl] at h
    injection h with h
    rw [← h] at hp
    cases hp
  · rw [show demoHeap[1]? = some ⟨.Unresolved, .none, some 0, true⟩ from rfl] at h
    injection h with h
    rw [← h] at hp
    injection hp with hp
    omega
  · rw [show demoHeap[2]? = some ⟨.Unresolved, .none, some 0, true⟩ from rfl] at h
    injection h with h
    rw [← h] at hp
    injection hp with hp
    omega
  · rw [show demoHeap[addr + 3]? = none from by
      simp [demoHeap]] at h
    cases h

/-- C2 counterexample: completing an integer value whose declared return
type is the abstract type `Node` does not resolve a concrete object type
and populate the result as kind Object; `completeAbstractValue` panics with
"unimplemented" (the `Except` error), leaving the result node untouched. -/
theorem completeAbstract_counterexample :
    completeValue demoTaskCtx 3 (.abstract "Node") 0 (.int 1)
      ⟨[⟨.Unresolved, .none, none, false⟩], [], []⟩ = .error "unimplemented" := rfl

/-- C2 (amended): for every raw value that is neither nullish nor an error
value, completion against an abstract (union or interface) return type
reaches `completeAbstractValue`, whose body is `panic("unimplemented")`: no
type resolver is consulted and no object completion happens. -/
theorem completeAbstractValue_unimplemented (ctx : TaskCtx) (name : String)
    (addr : Nat) (value : RawValue) (st : ExecState)
    (hnull : IsNullish value = false) (herr : ∀ e, value ≠ RawValue.gqlError e) :
    completeNonWrappingValue ctx (.abstract name) addr value st =
      .error "unimplemented" := by
  cases value with
  | null => simp [IsNullish] at hnull
  | gqlError e => exact absurd rfl (herr e)
  | int n => rfl
  | str s => rfl
  | boolean b => rfl
  | list l => rfl

theorem completeAbstractValue_unimplemented_witness :
    IsNullish (RawValue.int 1) = false ∧
    completeNonWrappingValue demoTaskCtx (.abstract "Node") 0 (RawValue.int 1)
      ⟨[], [], []⟩ = .error "unimplemented" :=
  ⟨rfl, completeAbstractValue_unimplemented demoTaskCtx "Node" 0 (.int 1) ⟨[], [], []⟩
    rfl (fun e h => RawValue.noConfusion h)⟩

/-- C1 counterexample: a quietly nil'ed non-null node under a live parent.
Completing the value `[null]` against `NonNull(List(Int))` allocates the
element node with the non-null flag (taken from the list type's own
non-nullness, execute.go:572) and then resolves the null element to Nil via
the quiet path of `completeNonWrappingValue` (execute.go:614-618), which
appends no error and never bubbles: the final heap has an element with
`isNonNull = true` and kind Nil whose parent, the list node, has kind List —
not Nil. -/
theorem nullBubbling_counterexample :
    completeValue demoTaskCtx 3 (.nonNull (.list demoIntLeaf)) 0 (.list [.null])
        ⟨[⟨.Unresolved, .none, none, true⟩], [], []⟩ =
      .ok ⟨demoQuietHeap, [], []⟩ ∧
    ∃ n1 n0 : ResultNode, demoQuietHeap[1]? = some n1 ∧ n1.isNonNull = true ∧
      n1.kind = .Nil ∧ n1.parent = some 0 ∧ demoQuietHeap[0]? = some n0 ∧
      n0.kind ≠ .Nil :=
  ⟨rfl, ⟨.Nil, .none, some 0, true⟩, ⟨.List, .listVal [1], none, true⟩,
    rfl, rfl, rfl, rfl, rfl, by decide⟩

/-- C1 (amended): null bubbling as the code implements it.  First, a queue
step of `completeWrappingValue` whose target's parent is already Nil skips
the node entirely (no further work).  Second, along the error path: when a
node is nil'ed by `handleNodeError` — the only path that bubbles — the
executor's `AppendError` walks the parent chain, so afterwards the node is
Nil and, as long as the chain's nodes are marked non-null, each parent in
turn is Nil, until a nullable or parentless ancestor absorbs the null
(`NilBubbled`).  The quiet null path of `completeNonWrappingValue` carries no
such guarantee (see the counterexample): the claimed invariant holds only
for Nil kinds produced with an error. -/
theorem nullBubbling_amended :
    (∀ (ctx : TaskCtx) (fuel : Nat) (vn : ValueNode) (queueRest : List ValueNode)
      (st : ExecState), parentIsNil st.heap vn.result = true →
      runCompleteQueue ctx (fuel + 1) (vn :: queueRest) st =
        runCompleteQueue ctx fuel queueRest st) ∧
    (∀ (ctx : TaskCtx) (err : GoError) (addr : Nat) (st : ExecState) (n : ResultNode),
      parentDecreasing st.heap → st.heap[addr]? = some n →
      NilBubbled (handleNodeError ctx err addr st).heap addr) := by
  constructor
  · intro ctx fuel vn queueRest st hnil
    rw [runCompleteQueue, if_pos hnil]
  · intro ctx err addr st n hdec hn
    rw [handleNodeError_heap]
    exact bubbleNil_establishes (setNilR st.heap addr).length (setNilR st.heap addr)
      addr (setKindValue .Nil .none n)
      (parentDecreasing_setNilR st.heap addr hdec)
      (setNilR_getElem_eq st.heap addr n hn) rfl
      (by rw [setNilR_length]; exact getElem?R_some_lt st.heap addr n hn)

theorem nullBubbling_amended_witness :
    parentIsNil demoBrokenState.heap 1 = true ∧
    runCompleteQueue demoTaskCtx 2 [⟨demoIntLeaf, 1, .int 5⟩] demoBrokenState =
      runCompleteQueue demoTaskCtx 1 [] demoBrokenState ∧
    parentDecreasing demoHeap ∧
    demoHeap[1]? = some ⟨.Unresolved, .none, some 0, true⟩ ∧
    NilBubbled (handleNodeError demoTaskCtx (.plain "boom") 1 demoListState).heap 1 :=
  ⟨rfl,
    nullBubbling_amended.1 demoTaskCtx 1 ⟨demoIntLeaf, 1, .int 5⟩ [] demoBrokenState rfl,
    parentDecreasing_demoHeap, rfl,
    nullBubbling_amended.2 demoTaskCtx (.plain "boom") 1 demoListState
      ⟨.Unresolved, .none, some 0, true⟩ parentDecreasing_demoHeap rfl⟩

/-- C9: the inline element loop of list completion (execute.go:592-604)
processes elements left to right, and when completing an element reports
failure (`ok = false`) and that failure has nil'ed the list's own result
node, the loop stops with exactly the state produced by the failing
element: none of the remaining elements is completed, and — since one
element's completion only writes the element's node, nodes above it in the
parent chain, and freshly appended nodes — every later address in the heap
(in particular every remaining element's ResultNode) is unmodified. -/
theorem completeList_break_frame (ctx : TaskCtx) (elementType : OutType)
    (listAddr : Nat) (a : Nat) (v : RawValue) (rest : List (Nat × RawValue))
    (st st1 : ExecState) (hdec : parentDecreasing st.heap)
    (hstep : completeNonWrappingValue ctx elementType a v st = .ok (false, st1))
    (hnil : resultIsNil st1.heap listAddr = true) :
    completeListElemsLoop ctx elementType listAddr ((a, v) :: rest) st = .ok st1 ∧
    ∀ b, a < b → b < st.heap.length → st1.heap[b]? = st.heap[b]? := by
  constructor
  · rw [completeListElemsLoop, hstep]
    simp only []
    rw [if_neg (by simp), if_pos hnil]
  · intro b hab hblen
    exact completeNonWrappingValue_preserves_above ctx elementType a v st st1 false b
      hdec hstep hab hblen

theorem completeList_break_frame_witness :
    parentDecreasing demoListState.heap ∧
    completeNonWrappingValue demoTaskCtx demoIntLeaf 1 (.str "x") demoListState =
      .ok (false, demoBrokenState) ∧
    resultIsNil demoBrokenState.heap 0 = true ∧
    (completeListElemsLoop demoTaskCtx demoIntLeaf 0 [(1, .str "x"), (2, .int 5)]
        demoListState = .ok demoBrokenState ∧
      ∀ b, 1 < b → b < demoListState.heap.length →
        demoBrokenState.heap[b]? = demoListState.heap[b]?) :=
  ⟨parentDecreasing_demoHeap, rfl, rfl,
    completeList_break_frame demoTaskCtx demoIntLeaf 0 1 (.str "x") [(2, .int 5)]
      demoListState demoBrokenState parentDecreasing_demoHeap rfl rfl⟩

end Artemis
